import Mathlib

/-!
Verification development for the encrypted storage engine of the `sc` file
store (Go sources under `storage/`): the chunked authenticated-encryption
stream codec (`storage.go`), the stateless resumable chunk-ingest protocol
(`stateless_chunk.go`), and the manifest-backed path resolution
(`manifest.go`).

Modelling conventions:
* A Go byte slice is a `List Nat`; every byte produced by the program is
  `< 256`, and big-endian `uint32` encoding is explicit arithmetic `% 2^32`.
* `io.Reader` input to `Encrypt` is a list of deliveries: the successive
  byte slices returned by `r.Read(buf)` (Go readers may return short reads).
* The cryptographic primitives from the Go standard library and
  `golang.org/x/crypto` (HKDF-SHA256, AES-256-GCM) are not part of this
  repository; they are modelled as ideal injective primitives: distinct
  inputs give distinct outputs, and GCM `Open` succeeds exactly on a tag
  produced by `Seal` with the same key, nonce and associated data.
* The filesystem used by the chunk-ingest staging area is a map from chunk
  index to the bytes of its `.part` file.
-/

/-- Go `[]byte`. -/
abbrev Bytes := List Nat

/-- Injective encoding of a byte slice into one natural number, used to build
the ideal cryptographic primitives. -/
def encL : Bytes → Nat
  | [] => 0
  | b :: t => Nat.pair b (encL t) + 1

theorem pair_inj {a b c d : Nat} (h : Nat.pair a b = Nat.pair c d) : a = c ∧ b = d := by
  have h2 := congrArg Nat.unpair h
  rw [Nat.unpair_pair, Nat.unpair_pair] at h2
  exact ⟨congrArg Prod.fst h2, congrArg Prod.snd h2⟩

theorem encL_inj : ∀ {a b : Bytes}, encL a = encL b → a = b
  | [], [], _ => rfl
  | [], _ :: _, h => by simp [encL] at h
  | _ :: _, [], h => by simp [encL] at h
  | x :: xs, y :: ys, h => by
      simp only [encL, Nat.add_right_cancel_iff] at h
      obtain ⟨h1, h2⟩ := pair_inj h
      rw [h1, encL_inj h2]

/-- Go `binary.BigEndian.PutUint32`: the four big-endian bytes of `n mod 2^32`. -/
def be32 (n : Nat) : Bytes :=
  [n / 2 ^ 24 % 256, n / 2 ^ 16 % 256, n / 2 ^ 8 % 256, n % 256]

/-- Go `binary.BigEndian.Uint32` on (the first four bytes of) a slice. -/
def u32be (b : Bytes) : Nat :=
  b.getD 0 0 * 2 ^ 24 + b.getD 1 0 * 2 ^ 16 + b.getD 2 0 * 2 ^ 8 + b.getD 3 0

theorem be32_length (n : Nat) : (be32 n).length = 4 := rfl

theorem u32be_be32 {n : Nat} (h : n < 2 ^ 32) : u32be (be32 n) = n := by
  simp [be32, u32be, List.getD]
  omega

theorem be32_mod (n : Nat) : be32 (n % 2 ^ 32) = be32 n := by
  simp only [be32, List.cons.injEq, and_true]
  omega

/-- Bytes of a Go string literal (all our literals are ASCII). -/
def strBytes (s : String) : Bytes := s.data.map Char.toNat

/-- Modelled from the spec: HKDF-SHA256 (`hkdf.New(sha256.New, ikm, salt, info)`
followed by reading `n` bytes), idealized as an injective pseudorandom
function of `(ikm, salt, info)` producing `n` distinct values.  The Go
implementation lives in `golang.org/x/crypto/hkdf`, outside this repository. -/
def hkdfSHA256 (n : Nat) (ikm salt info : Bytes) : Bytes :=
  (List.range n).map fun i =>
    Nat.pair i (Nat.pair (encL ikm) (Nat.pair (encL salt) (encL info)))

theorem hkdfSHA256_length (n : Nat) (ikm salt info : Bytes) :
    (hkdfSHA256 n ikm salt info).length = n := by
  simp [hkdfSHA256]

theorem hkdfSHA256_getD0 {n : Nat} (h : 0 < n) (ikm salt info : Bytes) :
    (hkdfSHA256 n ikm salt info).getD 0 0 =
      Nat.pair 0 (Nat.pair (encL ikm) (Nat.pair (encL salt) (encL info))) := by
  unfold hkdfSHA256
  rw [List.getD_eq_getElem _ _ (by simpa using h)]
  simp

theorem hkdfSHA256_inj {n : Nat} (h : 0 < n) {i1 s1 f1 i2 s2 f2 : Bytes}
    (he : hkdfSHA256 n i1 s1 f1 = hkdfSHA256 n i2 s2 f2) :
    i1 = i2 ∧ s1 = s2 ∧ f1 = f2 := by
  have h0 := congrArg (fun l => l.getD 0 0) he
  simp only [hkdfSHA256_getD0 h] at h0
  obtain ⟨-, h1⟩ := pair_inj h0
  obtain ⟨hi, h2⟩ := pair_inj h1
  obtain ⟨hs, hf⟩ := pair_inj h2
  exact ⟨encL_inj hi, encL_inj hs, encL_inj hf⟩

/-- Modelled from the spec: the 16-byte AES-256-GCM authentication tag,
idealized as an injective function of key, nonce, associated data and
plaintext (a forgery-free MAC).  AES-GCM itself is `crypto/aes` +
`crypto/cipher`, outside this repository. -/
def gcmTag (key nonce aad plain : Bytes) : Bytes :=
  Nat.pair (encL key) (Nat.pair (encL nonce) (Nat.pair (encL aad) (encL plain)))
    :: List.replicate 15 0

theorem gcmTag_length (key nonce aad plain : Bytes) :
    (gcmTag key nonce aad plain).length = 16 := by
  simp [gcmTag]

theorem gcmTag_inj {k1 n1 a1 p1 k2 n2 a2 p2 : Bytes}
    (h : gcmTag k1 n1 a1 p1 = gcmTag k2 n2 a2 p2) :
    k1 = k2 ∧ n1 = n2 ∧ a1 = a2 ∧ p1 = p2 := by
  have h0 : Nat.pair (encL k1) (Nat.pair (encL n1) (Nat.pair (encL a1) (encL p1)))
      = Nat.pair (encL k2) (Nat.pair (encL n2) (Nat.pair (encL a2) (encL p2))) :=
    (List.cons.injEq _ _ _ _ ▸ h).1
  obtain ⟨hk, h1⟩ := pair_inj h0
  obtain ⟨hn, h2⟩ := pair_inj h1
  obtain ⟨ha, hp⟩ := pair_inj h2
  exact ⟨encL_inj hk, encL_inj hn, encL_inj ha, encL_inj hp⟩

/-- When the key is nonempty (ours are 32 bytes), the head of a tag is never
`0`, so a tag is never 16 zero bytes. -/
theorem gcmTag_ne_zeros {key : Bytes} (hk : key ≠ []) (nonce aad plain : Bytes) :
    gcmTag key nonce aad plain ≠ List.replicate 16 0 := by
  intro h
  have h0 : Nat.pair (encL key) (Nat.pair (encL nonce) (Nat.pair (encL aad) (encL plain)))
      = 0 := by
    have hr : List.replicate 16 0 = 0 :: List.replicate 15 0 := rfl
    rw [hr] at h
    exact (List.cons.injEq _ _ _ _ ▸ h).1
  have h1 : Nat.pair (encL key) (Nat.pair (encL nonce) (Nat.pair (encL aad) (encL plain)))
      = Nat.pair 0 0 := by rw [h0]; rfl
  obtain ⟨hke, -⟩ := pair_inj h1
  exact hk (encL_inj (show encL key = encL [] from hke))

/-- Go `aeadBlock.Seal(nil, nonce, plain, aad)`: ciphertext is plaintext followed
by the 16-byte tag (idealized AES-256-GCM; `len(ct) = len(plain) + 16` as in
the real cipher). -/
def gcmSeal (key nonce plain aad : Bytes) : Bytes :=
  plain ++ gcmTag key nonce aad plain

/-- Go `aeadBlock.Open(nil, nonce, ct, aad)`: split off the trailing 16-byte tag
and accept exactly when it matches the tag recomputed with this key, nonce
and associated data. -/
def gcmOpen (key nonce ct aad : Bytes) : Option Bytes :=
  if ct.length < 16 then none
  else if ct.drop (ct.length - 16) = gcmTag key nonce aad (ct.take (ct.length - 16))
  then some (ct.take (ct.length - 16))
  else none

theorem gcmSeal_length (key nonce plain aad : Bytes) :
    (gcmSeal key nonce plain aad).length = plain.length + 16 := by
  simp [gcmSeal, gcmTag]

theorem gcmOpen_gcmSeal (key nonce plain aad : Bytes) :
    gcmOpen key nonce (gcmSeal key nonce plain aad) aad = some plain := by
  have hlen := gcmSeal_length key nonce plain aad
  have htake : (gcmSeal key nonce plain aad).take
      ((gcmSeal key nonce plain aad).length - 16) = plain := by
    rw [hlen, Nat.add_sub_cancel]
    exact List.take_left' rfl
  have hdrop : (gcmSeal key nonce plain aad).drop
      ((gcmSeal key nonce plain aad).length - 16) = gcmTag key nonce aad plain := by
    rw [hlen, Nat.add_sub_cancel]
    exact List.drop_left' rfl
  unfold gcmOpen
  rw [htake, hdrop, if_neg (by omega), if_pos rfl]

/-! ## Stream codec (`storage.go`) -/

/-- Go `copy(dst[a:b], src)`: overwrite `min (b-a) src.length` bytes of `dst`
starting at offset `a`. -/
def goCopy (dst : Bytes) (a b : Nat) (src : Bytes) : Bytes :=
  dst.take a ++ src.take (min (b - a) src.length) ++ dst.drop (a + min (b - a) src.length)

/-- Go `generateHeader`: a 29-byte header `ver(1) | salt(16) | nonce prefix(8) |
chunkSize(4, big-endian uint32)`.  `uint32(chunkSize)` is `% 2^32`. -/
def generateHeader (chunkSize : Nat) (salt noncePre : Bytes) : Bytes :=
  goCopy (goCopy (goCopy ((List.replicate 29 0).set 0 1) 1 17 salt) 17 25 noncePre)
    25 29 (be32 (chunkSize % 2 ^ 32))

theorem goCopy_exact {dst src : Bytes} {a b : Nat} (hlen : src.length = b - a)
    (hab : a ≤ b) :
    goCopy dst a b src = dst.take a ++ src ++ dst.drop b := by
  unfold goCopy
  rw [hlen, Nat.min_self, List.take_of_length_le (le_of_eq hlen)]
  congr 2
  omega

/-- With the always-used argument shapes (16-byte salt, 8-byte nonce prefix)
the header is just the concatenation of its fields. -/
theorem generateHeader_eq {salt noncePre : Bytes} (h16 : salt.length = 16)
    (h8 : noncePre.length = 8) (chunkSize : Nat) :
    generateHeader chunkSize salt noncePre
      = 1 :: (salt ++ (noncePre ++ be32 (chunkSize % 2 ^ 32))) := by
  have s1 : goCopy ((List.replicate 29 0).set 0 1) 1 17 salt
      = [1] ++ salt ++ List.replicate 12 0 := by
    rw [goCopy_exact (by omega) (by omega)]
    rfl
  have s2 : goCopy ([1] ++ salt ++ List.replicate 12 0) 17 25 noncePre
      = [1] ++ salt ++ noncePre ++ List.replicate 4 0 := by
    rw [goCopy_exact (by omega) (by omega)]
    rw [List.take_left' (by simp [h16]), List.drop_append_eq_append_drop,
      List.drop_of_length_le (by simp [h16]), List.drop_replicate]
    simp [h16]
  have s3 : goCopy ([1] ++ salt ++ noncePre ++ List.replicate 4 0) 25 29
        (be32 (chunkSize % 2 ^ 32))
      = [1] ++ salt ++ noncePre ++ be32 (chunkSize % 2 ^ 32) := by
    rw [goCopy_exact (by simp [be32]) (by omega)]
    rw [show ([1] ++ salt ++ noncePre ++ List.replicate 4 0)
        = ([1] ++ salt ++ noncePre) ++ List.replicate 4 0 by simp,
      List.take_left' (by simp [h16, h8]),
      List.drop_of_length_le (by simp [h16, h8])]
    simp
  unfold generateHeader
  rw [s1, s2, s3]
  simp

theorem generateHeader_length (chunkSize : Nat) (salt noncePre : Bytes) :
    (generateHeader chunkSize salt noncePre).length = 29 := by
  unfold generateHeader goCopy
  simp only [List.length_append, List.length_take, List.length_drop, List.length_set,
    List.length_replicate]
  omega

/-- Error kinds of the stream codec, one per distinct failure in the source
(§7 of the spec gives them these abstract names). -/
inductive StreamErr where
  /-- Go `io.ReadFull` of the 29-byte header failed. -/
  | shortHeader : StreamErr
  /-- Go `unsupported version: %d`. -/
  | unsupportedVersion (v : Nat) : StreamErr
  /-- truncated length prefix or record body (`io.ErrUnexpectedEOF`). -/
  | corruptFrame : StreamErr
  /-- Go `auth failed on chunk %d`. -/
  | authFailed (index : Nat) : StreamErr
  /-- Go `too many chunks: index overflow`. -/
  | chunkLimit : StreamErr
deriving DecidableEq, Repr

/-- Go `readHeader`: read exactly 29 bytes, check the version byte, split out the
salt, the nonce prefix and the big-endian chunk size; also return the exact
header bytes (used as AAD) and the remaining input. -/
def readHeader (r : Bytes) : Except StreamErr (Nat × Bytes × Bytes × Bytes × Bytes) :=
  if r.length < 29 then .error .shortHeader
  else if (r.take 29).getD 0 0 ≠ 1 then .error (.unsupportedVersion ((r.take 29).getD 0 0))
  else .ok (u32be (((r.take 29).drop 25).take 4), r.take 29,
    ((r.take 29).drop 1).take 16, ((r.take 29).drop 17).take 8, r.drop 29)

/-- Go `deriveFileKey`: HKDF-SHA256 with input key material the master key, salt
the per-file salt and info `"file-key:v1"`, reading 32 bytes. -/
def deriveFileKey (masterKey salt : Bytes) : Bytes :=
  hkdfSHA256 32 masterKey salt (strBytes "file-key:v1")

theorem deriveFileKey_length (masterKey salt : Bytes) :
    (deriveFileKey masterKey salt).length = 32 :=
  hkdfSHA256_length _ _ _ _

theorem deriveFileKey_ne_nil (masterKey salt : Bytes) :
    deriveFileKey masterKey salt ≠ [] := by
  intro h
  have := deriveFileKey_length masterKey salt
  rw [h] at this
  simp at this

theorem deriveFileKey_inj {k1 s1 k2 s2 : Bytes}
    (h : deriveFileKey k1 s1 = deriveFileKey k2 s2) : k1 = k2 ∧ s1 = s2 := by
  have := hkdfSHA256_inj (by omega : 0 < 32) h
  exact ⟨this.1, this.2.1⟩

/-- Go `defaultChunk = 1 << 20`. -/
def defaultChunk : Int := 2 ^ 20

/-- The chunk size `Encrypt` actually uses: the caller's value if positive,
else `defaultChunk`. -/
def effectiveChunk (chunkSize : Int) : Int :=
  if chunkSize ≤ 0 then defaultChunk else chunkSize

/-- The per-record loop of `Encrypt`.  `i` is the running `uint32` record
index; each delivery is the byte slice one `r.Read(buf)` call returned
(empty deliveries produce no record, matching the `n > 0` guard).  Output is
the frame bytes written to `w` paired with the error, if any: after sealing
a record the source errors out when `i` is already `2^32 - 1`. -/
def encLoop (key hdr noncePre : Bytes) : Nat → List Bytes → Bytes × Option StreamErr
  | _, [] => ([], none)
  | i, d :: rest =>
    if d.length = 0 then encLoop key hdr noncePre i rest
    else
      let ct := gcmSeal key (noncePre ++ be32 i) d (hdr ++ be32 i)
      let frame := be32 (ct.length % 2 ^ 32) ++ ct
      if i = 2 ^ 32 - 1 then (frame, some .chunkLimit)
      else
        let r := encLoop key hdr noncePre (i + 1) rest
        (frame ++ r.1, r.2)

/-- Go `Encrypt(masterKey, r, w, chunkSize)`.  The random 16-byte salt and 8-byte
nonce prefix drawn from the OS CSPRNG are passed in as parameters; `ds` is
the list of byte slices the reader delivers.  Result: all bytes written to
`w`, and the error if any. -/
def Encrypt (masterKey salt noncePre : Bytes) (ds : List Bytes) (chunkSize : Int) :
    Bytes × Option StreamErr :=
  let hdr := generateHeader (effectiveChunk chunkSize).toNat salt noncePre
  let r := encLoop (deriveFileKey masterKey salt) hdr noncePre 0 ds
  (hdr ++ r.1, r.2)

/-- The per-record loop of `Decrypt`: read a 4-byte big-endian length (clean
EOF if the input is exhausted), read that many ciphertext bytes, `Open` with
nonce `noncePre ∥ i_be32` and AAD `hdr ∥ i_be32`, write the plaintext, and
continue; after a successful record the source errors out when `i` is
already `2^32 - 1`.  Output: plaintext bytes written so far, and the error
if any. -/
def decLoop (key hdr noncePre : Bytes) (i : Nat) (input : Bytes) :
    Bytes × Option StreamErr :=
  if input.length = 0 then ([], none)
  else if input.length < 4 then ([], some .corruptFrame)
  else if (input.drop 4).length < u32be (input.take 4) then ([], some .corruptFrame)
  else
    match gcmOpen key (noncePre ++ be32 i) ((input.drop 4).take (u32be (input.take 4)))
        (hdr ++ be32 i) with
    | none => ([], some (.authFailed i))
    | some plain =>
      if i = 2 ^ 32 - 1 then (plain, some .chunkLimit)
      else
        let r := decLoop key hdr noncePre (i + 1) ((input.drop 4).drop (u32be (input.take 4)))
        (plain ++ r.1, r.2)
termination_by input.length
decreasing_by
  simp only [List.length_drop]
  omega

/-- Go `Decrypt(masterKey, r, w)`: parse the header, derive the file key from the
master key and the header's salt, then decrypt records until clean EOF. -/
def Decrypt (masterKey : Bytes) (input : Bytes) : Bytes × Option StreamErr :=
  match readHeader input with
  | .error e => ([], some e)
  | .ok (_, hdr, salt, noncePre, rest) =>
    decLoop (deriveFileKey masterKey salt) hdr noncePre 0 rest

/-! ## Frame-level lemmas -/

/-- Go `readHeader` inverts `writeHeader`/`generateHeader` and hands back the
remaining stream. -/
theorem readHeader_ok {salt noncePre : Bytes} (h16 : salt.length = 16)
    (h8 : noncePre.length = 8) (cs : Nat) (rest : Bytes) :
    readHeader (generateHeader cs salt noncePre ++ rest)
      = .ok (cs % 2 ^ 32, generateHeader cs salt noncePre, salt, noncePre, rest) := by
  have hg := generateHeader_eq h16 h8 cs
  have hlen : (generateHeader cs salt noncePre).length = 29 := generateHeader_length _ _ _
  unfold readHeader
  rw [List.take_left' hlen, List.drop_left' hlen]
  have hv : (generateHeader cs salt noncePre).getD 0 0 = 1 := by
    rw [hg]; rfl
  have hsalt : ((generateHeader cs salt noncePre).drop 1).take 16 = salt := by
    rw [hg, List.drop_one, List.tail_cons, List.take_left' h16]
  have hnp : ((generateHeader cs salt noncePre).drop 17).take 8 = noncePre := by
    rw [hg, show (17 : Nat) = 1 + 16 by rfl, ← List.drop_drop, List.drop_one,
      List.tail_cons, List.drop_left' h16, List.take_left' h8]
  have hcs : ((generateHeader cs salt noncePre).drop 25).take 4 = be32 (cs % 2 ^ 32) := by
    rw [hg, show (25 : Nat) = 1 + 24 by rfl, ← List.drop_drop, List.drop_one,
      List.tail_cons, List.drop_append_eq_append_drop,
      List.drop_of_length_le (by omega), h16, List.drop_append_eq_append_drop,
      List.drop_of_length_le (by omega), h8]
    simp [be32]
  rw [if_neg (by simp [hlen]), hv, hsalt, hnp, hcs,
    u32be_be32 (Nat.mod_lt _ (by norm_num))]
  simp

/-- Go `Decrypt` on a well-formed stream: parse the header, then run the record
loop on the rest with the file key derived from the recovered salt. -/
theorem Decrypt_eq (masterKey : Bytes) {salt noncePre : Bytes} (h16 : salt.length = 16)
    (h8 : noncePre.length = 8) (cs : Nat) (rest : Bytes) :
    Decrypt masterKey (generateHeader cs salt noncePre ++ rest)
      = decLoop (deriveFileKey masterKey salt) (generateHeader cs salt noncePre)
          noncePre 0 rest := by
  unfold Decrypt
  rw [readHeader_ok h16 h8]

/-- The byte stream of consecutive records (frames) for the chunks of `cl`,
starting at record index `i`: each frame is the 4-byte big-endian ciphertext
length followed by the sealed chunk, exactly as both `Encrypt` and
`encryptRecord` emit it. -/
def framesFrom (key hdr noncePre : Bytes) : Nat → List Bytes → Bytes
  | _, [] => []
  | i, d :: t =>
    (be32 ((d.length + 16) % 2 ^ 32) ++ gcmSeal key (noncePre ++ be32 i) d (hdr ++ be32 i))
      ++ framesFrom key hdr noncePre (i + 1) t

/-- The deliveries that actually produce records: Go seals only when `n > 0`. -/
def nonEmpties (ds : List Bytes) : List Bytes := ds.filter fun d => !d.isEmpty

theorem nonEmpties_sub {ds : List Bytes} {d : Bytes} (h : d ∈ nonEmpties ds) : d ∈ ds :=
  List.mem_of_mem_filter h

theorem nonEmpties_ne_nil {ds : List Bytes} {d : Bytes} (h : d ∈ nonEmpties ds) : d ≠ [] := by
  have := List.of_mem_filter h
  simpa using this

theorem nonEmpties_flatten (ds : List Bytes) : (nonEmpties ds).flatten = ds.flatten := by
  induction ds with
  | nil => rfl
  | cons d t ih =>
    by_cases hd : d.isEmpty
    · have hdnil : d = [] := by simpa using hd
      simp [nonEmpties, List.filter, hd, hdnil] at ih ⊢
      exact ih
    · simp only [nonEmpties, List.filter, hd, Bool.not_false, List.flatten_cons] at ih ⊢
      rw [ih]

/-- Empty deliveries are skipped: `encLoop` only looks at nonempty reads. -/
theorem encLoop_nonEmpties (key hdr noncePre : Bytes) :
    ∀ (ds : List Bytes) (i : Nat),
      encLoop key hdr noncePre i ds = encLoop key hdr noncePre i (nonEmpties ds)
  | [], _ => rfl
  | d :: t, i => by
    by_cases hd : d.length = 0
    · have hde : d.isEmpty = true := by simpa using List.length_eq_zero.mp hd
      have hne : nonEmpties (d :: t) = nonEmpties t := by
        simp [nonEmpties, List.filter_cons, hde]
      rw [hne]
      simp only [encLoop, if_pos hd]
      exact encLoop_nonEmpties key hdr noncePre t i
    · have hde : d.isEmpty = false := by
        cases d with
        | nil => exact absurd rfl hd
        | cons a l => rfl
      have hne : nonEmpties (d :: t) = d :: nonEmpties t := by
        simp [nonEmpties, List.filter_cons, hde]
      rw [hne]
      simp only [encLoop, if_neg hd, encLoop_nonEmpties key hdr noncePre t (i + 1)]

/-- When all deliveries are nonempty and there are few enough of them,
`Encrypt`'s record loop succeeds and emits exactly the frame stream. -/
theorem encLoop_frames (key hdr noncePre : Bytes) :
    ∀ (ds : List Bytes) (i : Nat), (∀ d ∈ ds, d ≠ []) → i + ds.length ≤ 2 ^ 32 - 1 →
      encLoop key hdr noncePre i ds = (framesFrom key hdr noncePre i ds, none)
  | [], i, _, _ => rfl
  | d :: t, i, hne, hcount => by
    have hd : d.length ≠ 0 := by
      simpa [List.length_eq_zero] using hne d (by simp)
    have hi : i ≠ 2 ^ 32 - 1 := by
      have := hcount
      simp only [List.length_cons] at this
      omega
    have ih := encLoop_frames key hdr noncePre t (i + 1)
      (fun x hx => hne x (by simp [hx]))
      (by simp only [List.length_cons] at hcount; omega)
    simp only [encLoop, if_neg hd, if_neg hi, ih, framesFrom, gcmSeal_length]

theorem decLoop_nil (key hdr noncePre : Bytes) (i : Nat) :
    decLoop key hdr noncePre i [] = ([], none) := by
  unfold decLoop
  simp

/-- Go `Decrypt`'s record loop inverts the frame stream: with matching key,
header and nonce prefix it recovers exactly the concatenated chunks. -/
theorem decLoop_frames (key hdr noncePre : Bytes) :
    ∀ (cl : List Bytes) (i : Nat),
      (∀ d ∈ cl, d.length + 16 < 2 ^ 32) → i + cl.length ≤ 2 ^ 32 - 1 →
      decLoop key hdr noncePre i (framesFrom key hdr noncePre i cl) = (cl.flatten, none)
  | [], i, _, _ => by
    simp only [framesFrom]
    rw [decLoop_nil]
    rfl
  | d :: t, i, hw, hc => by
    have hwd : d.length + 16 < 2 ^ 32 := hw d (by simp)
    have hctlen : (gcmSeal key (noncePre ++ be32 i) d (hdr ++ be32 i)).length
        = d.length + 16 := gcmSeal_length _ _ _ _
    have hmod : (d.length + 16) % 2 ^ 32 = d.length + 16 := Nat.mod_eq_of_lt hwd
    have hframes : framesFrom key hdr noncePre i (d :: t)
        = be32 (d.length + 16)
          ++ (gcmSeal key (noncePre ++ be32 i) d (hdr ++ be32 i)
              ++ framesFrom key hdr noncePre (i + 1) t) := by
      simp only [framesFrom, hmod, List.append_assoc]
    have htake4 : (be32 (d.length + 16)
        ++ (gcmSeal key (noncePre ++ be32 i) d (hdr ++ be32 i)
            ++ framesFrom key hdr noncePre (i + 1) t)).take 4 = be32 (d.length + 16) :=
      List.take_left' (be32_length _)
    have hdrop4 : (be32 (d.length + 16)
        ++ (gcmSeal key (noncePre ++ be32 i) d (hdr ++ be32 i)
            ++ framesFrom key hdr noncePre (i + 1) t)).drop 4
        = gcmSeal key (noncePre ++ be32 i) d (hdr ++ be32 i)
          ++ framesFrom key hdr noncePre (i + 1) t :=
      List.drop_left' (be32_length _)
    have htakeL : (gcmSeal key (noncePre ++ be32 i) d (hdr ++ be32 i)
        ++ framesFrom key hdr noncePre (i + 1) t).take (d.length + 16)
        = gcmSeal key (noncePre ++ be32 i) d (hdr ++ be32 i) :=
      List.take_left' hctlen
    have hdropL : (gcmSeal key (noncePre ++ be32 i) d (hdr ++ be32 i)
        ++ framesFrom key hdr noncePre (i + 1) t).drop (d.length + 16)
        = framesFrom key hdr noncePre (i + 1) t :=
      List.drop_left' hctlen
    have hi : i ≠ 2 ^ 32 - 1 := by
      simp only [List.length_cons] at hc
      omega
    have ih := decLoop_frames key hdr noncePre t (i + 1)
      (fun x hx => hw x (by simp [hx]))
      (by simp only [List.length_cons] at hc; omega)
    rw [hframes]
    unfold decLoop
    rw [htake4, hdrop4, u32be_be32 hwd, htakeL, hdropL]
    rw [if_neg (by simp [hctlen]), if_neg (by simp [hctlen]; omega),
      if_neg (by simp [hctlen])]
    simp only [gcmOpen_gcmSeal, if_neg hi, ih, List.flatten_cons]

/-- Go `Encrypt` under the two real-world bounds (all records exist and there are
at most `2^32 - 1` of them): output is header followed by the frame stream. -/
theorem Encrypt_frames (masterKey salt noncePre : Bytes) (ds : List Bytes) (cs : Int)
    (hcount : (nonEmpties ds).length ≤ 2 ^ 32 - 1) :
    Encrypt masterKey salt noncePre ds cs
      = (generateHeader (effectiveChunk cs).toNat salt noncePre
          ++ framesFrom (deriveFileKey masterKey salt)
              (generateHeader (effectiveChunk cs).toNat salt noncePre) noncePre 0
              (nonEmpties ds),
        none) := by
  have h1 := encLoop_nonEmpties (deriveFileKey masterKey salt)
    (generateHeader (effectiveChunk cs).toNat salt noncePre) noncePre ds 0
  have h2 := encLoop_frames (deriveFileKey masterKey salt)
    (generateHeader (effectiveChunk cs).toNat salt noncePre) noncePre (nonEmpties ds) 0
    (fun d hd => nonEmpties_ne_nil hd) (by omega)
  simp only [Encrypt, h1, h2]

/-! ## Stateless chunk ingest (`stateless_chunk.go`) -/

/-- Go `stagedHeader`: the exact header bytes (used as AAD), salt and nonce
prefix shared by every chunk of one stateless upload. -/
structure StagedHeader where
  hdr : Bytes
  salt : Bytes
  noncePre : Bytes
deriving DecidableEq, Repr

/-- Go `hkdfBytes(n, key, salt, info)`: `hkdf.New(sha256.New, key, salt, info)`
read for `n` bytes — so the first argument `key` is HKDF's input key
material and the second is HKDF's salt. -/
def hkdfBytes (n : Nat) (key salt info : Bytes) : Bytes :=
  hkdfSHA256 n key salt info

/-- Go `deriveHeaderFor`: deterministic per-file header from
`(masterKey, fileID, chunkSize)`; the salt and nonce prefix are HKDF outputs
keyed by the master key with the file ID bytes in HKDF's salt position. -/
def deriveHeaderFor (masterKey : Bytes) (fileID : String) (chunkSize : Int) : StagedHeader :=
  { hdr := generateHeader chunkSize.toNat
      (hkdfBytes 16 masterKey (strBytes fileID) (strBytes "upload-salt:v1"))
      (hkdfBytes 8 masterKey (strBytes fileID) (strBytes "upload-nonceprefix:v1")),
    salt := hkdfBytes 16 masterKey (strBytes fileID) (strBytes "upload-salt:v1"),
    noncePre := hkdfBytes 8 masterKey (strBytes fileID) (strBytes "upload-nonceprefix:v1") }

/-- The AES-GCM file key `encryptRecord` derives: `deriveFileKey` on the
staged salt. -/
def recordKey (masterKey : Bytes) (sh : StagedHeader) : Bytes :=
  deriveFileKey masterKey sh.salt

/-- The 12-byte per-record nonce `encryptRecord` builds:
`copy(nonce[:8], sh.noncePrefix)` then `PutUint32(nonce[8:], index)`. -/
def recordNonce (sh : StagedHeader) (index : Nat) : Bytes :=
  goCopy (goCopy (List.replicate 12 0) 0 8 sh.noncePre) 8 12 (be32 index)

theorem recordNonce_eq {sh : StagedHeader} (h8 : sh.noncePre.length = 8) (index : Nat) :
    recordNonce sh index = sh.noncePre ++ be32 index := by
  unfold recordNonce
  rw [goCopy_exact (by simp [be32]) (by omega)]
  rw [goCopy_exact (by omega) (by omega)]
  rw [show (List.replicate 12 0 : Bytes).take 0 = [] from rfl,
    show (List.replicate 12 0 : Bytes).drop 8 = List.replicate 4 0 from rfl,
    List.nil_append, List.take_left' h8, List.drop_of_length_le (by simp [h8])]
  simp

/-- Go `encryptRecord`: seal one chunk at `index` with nonce
`noncePrefix ∥ index_be32` and AAD `hdr ∥ index_be32`, and frame it as
`len(ct)_be32 ∥ ct`. -/
def encryptRecord (masterKey : Bytes) (sh : StagedHeader) (index : Nat) (plain : Bytes) :
    Bytes :=
  be32 ((gcmSeal (recordKey masterKey sh) (recordNonce sh index) plain
      (sh.hdr ++ be32 index)).length % 2 ^ 32)
    ++ gcmSeal (recordKey masterKey sh) (recordNonce sh index) plain (sh.hdr ++ be32 index)

/-- The staging directory `<root>/_uploads/<fileid>/`, as the partial map from
chunk index to the bytes of its `NNNNNNNN.part` file. -/
def Staging := Nat → Option Bytes

/-- Fresh staging directory: no parts. -/
def emptyStaging : Staging := fun _ => none

/-- Go `writePart`: exclusive-create of `<index>.part`.  If the part already
exists the write is an idempotent no-op success — never an overwrite. -/
def writePart (s : Staging) (idx : Nat) (record : Bytes) : Staging :=
  fun j => if j = idx then some ((s idx).getD record) else s j

/-- Go `haveAllParts`: all of `00000000.part … <total-1>.part` exist. -/
def haveAllParts (s : Staging) (total : Nat) : Bool :=
  (List.range total).all fun i => (s i).isSome

/-- Go `assemble`, restricted to the bytes it writes into the destination file:
the staged header followed by all parts in ascending index order. -/
def assembleBytes (sh : StagedHeader) (s : Staging) (total : Nat) : Bytes :=
  sh.hdr ++ ((List.range total).map fun i => (s i).getD []).flatten

/-- Go `ChunkMeta` from the source. -/
structure ChunkMeta where
  logicalPath : String
  fileID : String
  chunkSize : Int
  index : Nat
  totalChunks : Int
  totalSize : Int
deriving DecidableEq, Repr

/-- Go `IngestChunkStateless`: validate the request, derive the deterministic
header, encrypt the single record, write it exclusively into staging, and
assemble once every part is present (after which the staging directory is
removed).  The returned `Option Bytes` is the content of the assembled
destination file, `none` while parts are still missing.  The manifest
bookkeeping done by `assemble` (`ResolveForCreate` / `UpdateFileMeta`) is
claim C9's territory and not part of this state. -/
def IngestChunkStateless (masterKey : Bytes) (meta : ChunkMeta) (plain : Bytes)
    (s : Staging) : Except String (Staging × Option Bytes) :=
  if meta.chunkSize ≤ 0 then .error "bad chunk_size"
  else if plain.length = 0 ∨ meta.chunkSize.toNat < plain.length then .error "bad chunk len"
  else if meta.totalChunks ≤ 0 then .error "bad total_chunks"
  else if meta.totalChunks.toNat ≤ meta.index then .error "index out of range"
  else if meta.logicalPath = "" ∨ meta.fileID = "" then .error "missing path or file_id"
  else
    let sh := deriveHeaderFor masterKey meta.fileID meta.chunkSize
    let s2 := writePart s meta.index (encryptRecord masterKey sh meta.index plain)
    if haveAllParts s2 meta.totalChunks.toNat then
      .ok (emptyStaging, some (assembleBytes sh s2 meta.totalChunks.toNat))
    else .ok (s2, none)

/-- Run a sequence of `IngestChunkStateless` calls for the chunks of one file,
one call per index in `order`, chunk `i` being `chunks[i]`.  Returns the
final staging state and the assembled file produced by whichever call
completed the set (if any). -/
def runIngest (masterKey : Bytes) (lp fid : String) (cs tot : Int) (chunks : List Bytes) :
    List Nat → Staging → Except String (Staging × Option Bytes)
  | [], s => .ok (s, none)
  | idx :: rest, s =>
    match IngestChunkStateless masterKey
        ⟨lp, fid, cs, idx, tot, 0⟩ (chunks.getD idx []) s with
    | .error e => .error e
    | .ok (s2, r) =>
      match runIngest masterKey lp fid cs tot chunks rest s2 with
      | .error e => .error e
      | .ok (s3, r2) => .ok (s3, match r2 with | some b => some b | none => r)

/-- The staging state after ingesting exactly the chunk indices in `done`
(for a fixed upload `(masterKey, fileID, chunkSize)` of `chunks`). -/
def stagingOf (masterKey : Bytes) (fid : String) (cs : Int) (chunks : List Bytes)
    (done : List Nat) : Staging :=
  fun i =>
    if i ∈ done
    then some (encryptRecord masterKey (deriveHeaderFor masterKey fid cs) i (chunks.getD i []))
    else none

/-- The bytes of the assembled destination file of a complete stateless
upload: deterministic header, then the records of all chunks in index
order.  Note this does not depend on the order chunks arrived in. -/
def assembledOf (masterKey : Bytes) (fid : String) (cs : Int) (chunks : List Bytes) : Bytes :=
  (deriveHeaderFor masterKey fid cs).hdr
    ++ ((List.range chunks.length).map fun i =>
        encryptRecord masterKey (deriveHeaderFor masterKey fid cs) i (chunks.getD i [])).flatten

theorem stagingOf_nil (masterKey : Bytes) (fid : String) (cs : Int) (chunks : List Bytes) :
    stagingOf masterKey fid cs chunks [] = emptyStaging := by
  funext i
  simp [stagingOf, emptyStaging]

theorem writePart_fresh {s : Staging} {idx : Nat} (h : s idx = none) (record : Bytes) :
    writePart s idx record = fun j => if j = idx then some record else s j := by
  funext j
  by_cases hj : j = idx
  · simp [writePart, hj, h]
  · simp [writePart, hj]

theorem writePart_existing {s : Staging} {idx : Nat} {r0 : Bytes} (h : s idx = some r0)
    (record : Bytes) : writePart s idx record = s := by
  funext j
  by_cases hj : j = idx
  · simp [writePart, hj, h]
  · simp [writePart, hj]

theorem writePart_stagingOf {masterKey : Bytes} {fid : String} {cs : Int}
    {chunks : List Bytes} {done : List Nat} {idx : Nat} (h : idx ∉ done) :
    writePart (stagingOf masterKey fid cs chunks done) idx
        (encryptRecord masterKey (deriveHeaderFor masterKey fid cs) idx (chunks.getD idx []))
      = stagingOf masterKey fid cs chunks (idx :: done) := by
  rw [writePart_fresh (by simp [stagingOf, h])]
  funext j
  by_cases hj : j = idx
  · simp [stagingOf, hj]
  · simp [stagingOf, hj]

theorem haveAllParts_true {masterKey : Bytes} {fid : String} {cs : Int}
    {chunks : List Bytes} {done : List Nat} {total : Nat}
    (h : ∀ i, i < total → i ∈ done) :
    haveAllParts (stagingOf masterKey fid cs chunks done) total = true := by
  simp only [haveAllParts, List.all_eq_true]
  intro i hi
  rw [List.mem_range] at hi
  simp [stagingOf, h i hi]

theorem haveAllParts_false {masterKey : Bytes} {fid : String} {cs : Int}
    {chunks : List Bytes} {done : List Nat} {total m : Nat}
    (hm : m < total) (hmem : m ∉ done) :
    haveAllParts (stagingOf masterKey fid cs chunks done) total = false := by
  simp only [haveAllParts, List.all_eq_false]
  exact ⟨m, by simpa using hm, by simp [stagingOf, hmem]⟩

theorem assembleBytes_complete {masterKey : Bytes} {fid : String} {cs : Int}
    {chunks : List Bytes} {done : List Nat}
    (h : ∀ i, i < chunks.length → i ∈ done) :
    assembleBytes (deriveHeaderFor masterKey fid cs)
        (stagingOf masterKey fid cs chunks done) chunks.length
      = assembledOf masterKey fid cs chunks := by
  unfold assembleBytes assembledOf
  congr 1
  apply congrArg
  apply List.map_congr_left
  intro i hi
  rw [List.mem_range] at hi
  simp [stagingOf, h i hi]

/-- The frame stream is the concatenation, in index order, of the per-index
frames. -/
theorem framesFrom_eq_flatten (key hdr noncePre : Bytes) :
    ∀ (cl : List Bytes) (k : Nat),
      framesFrom key hdr noncePre k cl
        = ((List.range cl.length).map fun i =>
            be32 (((cl.getD i []).length + 16) % 2 ^ 32)
              ++ gcmSeal key (noncePre ++ be32 (k + i)) (cl.getD i [])
                  (hdr ++ be32 (k + i))).flatten
  | [], k => by simp [framesFrom]
  | d :: t, k => by
    rw [framesFrom, framesFrom_eq_flatten key hdr noncePre t (k + 1)]
    rw [List.length_cons, List.range_succ_eq_map, List.map_cons, List.flatten_cons,
      List.map_map]
    have htail : ∀ a ∈ List.range t.length,
        (be32 (((t.getD a []).length + 16) % 2 ^ 32)
          ++ gcmSeal key (noncePre ++ be32 (k + 1 + a)) (t.getD a [])
              (hdr ++ be32 (k + 1 + a)))
        = ((fun i => be32 ((((d :: t).getD i []).length + 16) % 2 ^ 32)
              ++ gcmSeal key (noncePre ++ be32 (k + i)) ((d :: t).getD i [])
                  (hdr ++ be32 (k + i)))
            ∘ Nat.succ) a := by
      intro a _
      simp only [Function.comp_apply, List.getD_cons_succ]
      rw [show k + (a + 1) = k + 1 + a by omega]
    rw [List.map_congr_left htail]
    simp

/-- The assembled file of a complete upload is the deterministic header
followed by the frame stream of the chunks: exactly what `Decrypt` expects. -/
theorem assembledOf_frames (masterKey : Bytes) (fid : String) (cs : Int)
    (chunks : List Bytes) :
    assembledOf masterKey fid cs chunks
      = (deriveHeaderFor masterKey fid cs).hdr
        ++ framesFrom (recordKey masterKey (deriveHeaderFor masterKey fid cs))
            (deriveHeaderFor masterKey fid cs).hdr
            (deriveHeaderFor masterKey fid cs).noncePre 0 chunks := by
  unfold assembledOf
  rw [framesFrom_eq_flatten]
  congr 1
  apply congrArg
  apply List.map_congr_left
  intro i _
  unfold encryptRecord
  rw [recordNonce_eq (by simp [deriveHeaderFor, hkdfBytes, hkdfSHA256_length]) i,
    gcmSeal_length]
  simp

/-- One valid `IngestChunkStateless` call on the staging state with `done`
parts present, for a fresh index: it stores the record, and either finishes
the upload (all parts present) or reports it incomplete. -/
theorem ingest_step (masterKey : Bytes) (lp fid : String) (cs : Int) (chunks : List Bytes)
    (hlp : lp ≠ "") (hfid : fid ≠ "") (hcs : 0 < cs)
    {idx : Nat} (hidx : idx < chunks.length)
    (hne : chunks.getD idx [] ≠ []) (hle : (chunks.getD idx []).length ≤ cs.toNat)
    {done : List Nat} (hdone : idx ∉ done) :
    IngestChunkStateless masterKey ⟨lp, fid, cs, idx, (chunks.length : Int), 0⟩
        (chunks.getD idx []) (stagingOf masterKey fid cs chunks done)
      = if haveAllParts (stagingOf masterKey fid cs chunks (idx :: done)) chunks.length
        then .ok (emptyStaging,
          some (assembleBytes (deriveHeaderFor masterKey fid cs)
            (stagingOf masterKey fid cs chunks (idx :: done)) chunks.length))
        else .ok (stagingOf masterKey fid cs chunks (idx :: done), none) := by
  unfold IngestChunkStateless
  dsimp only
  rw [if_neg (by omega)]
  rw [if_neg (by
    simp only [not_or]
    exact ⟨by simpa [List.length_eq_zero] using hne, by omega⟩)]
  rw [if_neg (by omega)]
  rw [if_neg (by omega)]
  rw [if_neg (by simp [hlp, hfid])]
  simp only [Int.toNat_natCast]
  rw [writePart_stagingOf hdone]

/-- Running one ingest call per remaining index: whatever the order of the
remaining indices, the upload ends assembled to `assembledOf` with the
staging directory removed. -/
theorem runIngest_go (masterKey : Bytes) (lp fid : String) (cs : Int) (chunks : List Bytes)
    (hlp : lp ≠ "") (hfid : fid ≠ "") (hcs : 0 < cs)
    (hchunks : ∀ d ∈ chunks, d ≠ [] ∧ d.length ≤ cs.toNat) :
    ∀ (order done : List Nat), (done ++ order).Nodup →
      (∀ i, i < chunks.length ↔ i ∈ done ++ order) → order ≠ [] →
      runIngest masterKey lp fid cs (chunks.length : Int) chunks order
          (stagingOf masterKey fid cs chunks done)
        = .ok (emptyStaging, some (assembledOf masterKey fid cs chunks))
  | [], _, _, _, hne => absurd rfl hne
  | idx :: rest, done, hnd, hcov, _ => by
    have hidx : idx < chunks.length := (hcov idx).mpr (by simp)
    have hgd : chunks.getD idx [] ∈ chunks := by
      rw [List.getD_eq_getElem _ _ hidx]
      exact List.getElem_mem hidx
    have hcne := (hchunks _ hgd).1
    have hcle := (hchunks _ hgd).2
    have hperm : (idx :: (done ++ rest)).Nodup := List.perm_middle.nodup hnd
    have hnotint : idx ∉ done ++ rest := (List.nodup_cons.mp hperm).1
    have hdone : idx ∉ done := fun hm => hnotint (List.mem_append.mpr (Or.inl hm))
    cases rest with
    | nil =>
      have hall : ∀ i, i < chunks.length → i ∈ idx :: done := by
        intro i hi
        rcases List.mem_append.mp ((hcov i).mp hi) with h | h
        · exact List.mem_cons_of_mem _ h
        · simp only [List.mem_singleton] at h
          simp [h]
      simp only [runIngest]
      rw [ingest_step masterKey lp fid cs chunks hlp hfid hcs hidx hcne hcle hdone,
        if_pos (haveAllParts_true hall), assembleBytes_complete hall]
    | cons m rest2 =>
      have hm : m < chunks.length := (hcov m).mpr (by simp)
      have hmnot : m ∉ idx :: done := by
        intro hmem
        rcases List.mem_cons.mp hmem with h | h
        · exact hnotint (h ▸ (by simp : m ∈ done ++ m :: rest2))
        · have h2 : (done ++ m :: rest2).Nodup := (List.nodup_cons.mp hperm).2
          have h3 : (m :: (done ++ rest2)).Nodup := List.perm_middle.nodup h2
          exact (List.nodup_cons.mp h3).1 (List.mem_append.mpr (Or.inl h))
      have hcov2 : ∀ i, i < chunks.length ↔ i ∈ (idx :: done) ++ (m :: rest2) := by
        intro i
        rw [hcov i]
        simp only [List.mem_append, List.mem_cons]
        tauto
      have hrec := runIngest_go masterKey lp fid cs chunks hlp hfid hcs hchunks
        (m :: rest2) (idx :: done) hperm hcov2 (by simp)
      simp only [runIngest] at hrec ⊢
      rw [ingest_step masterKey lp fid cs chunks hlp hfid hcs hidx hcne hcle hdone,
        if_neg (by rw [haveAllParts_false hm hmnot]; simp)]
      dsimp only
      rw [hrec]

/-! ## Manifest (`manifest.go`) -/

/-- Go `ManifestEntry`.  The Go field `Type` ("file" or "dir") is `typ` here. -/
structure ManifestEntry where
  name : String
  enc : String
  typ : String
  size : Int
  created : Int
  modTime : Int
deriving DecidableEq, Repr

/-- Go `DirManifest`. -/
structure DirManifest where
  version : Int
  entries : List ManifestEntry
deriving DecidableEq, Repr

/-- Go `findEntry`: first entry matching both name and type. -/
def findEntry (m : DirManifest) (name typ : String) : Option ManifestEntry :=
  m.entries.find? fun e => e.name == name && e.typ == typ

/-- Go `ResolveForCreate`, at the parent directory the walk of
`resolveParentDir` ends in: `parentDir` and `fileName` are that walk's
results and `m` the parent manifest it loaded; `slug` stands for the
`randSlugHex(16)` draw and `now` for `time.Now().Unix()`.  If a `type="file"`
entry already exists the existing slug is reused and the manifest is left
as loaded (no `saveManifest`); otherwise a fresh entry (size omitted = 0,
both timestamps `now`) is appended and persisted.  Returns the destination
path `<parent>/<enc>.bin` and the resulting parent manifest. -/
def ResolveForCreate (parentDir fileName : String) (m : DirManifest) (slug : String)
    (now : Int) : String × DirManifest :=
  match findEntry m fileName "file" with
  | some e => (parentDir ++ "/" ++ e.enc ++ ".bin", m)
  | none =>
    (parentDir ++ "/" ++ slug ++ ".bin",
      { m with entries := m.entries ++ [⟨fileName, slug, "file", 0, now, now⟩] })

/-! ## Frame lengths of an encrypted body (for the record-size invariant) -/

/-- Parse the record framing of an encrypted file body (everything after the
29-byte header): the list of ciphertext lengths of its records. -/
def frameLens (b : Bytes) : Option (List Nat) :=
  if b.length = 0 then some []
  else if b.length < 4 then none
  else if (b.drop 4).length < u32be (b.take 4) then none
  else (frameLens ((b.drop 4).drop (u32be (b.take 4)))).map
    fun ls => u32be (b.take 4) :: ls
termination_by b.length
decreasing_by
  simp only [List.length_drop]
  omega

theorem frameLens_nil : frameLens [] = some [] := by
  unfold frameLens
  simp

/-- The frame stream of chunks `cl` parses into one record per chunk, of
ciphertext length `chunk length + 16`. -/
theorem frameLens_framesFrom (key hdr noncePre : Bytes) :
    ∀ (cl : List Bytes) (i : Nat), (∀ d ∈ cl, d.length + 16 < 2 ^ 32) →
      frameLens (framesFrom key hdr noncePre i cl)
        = some (cl.map fun d => d.length + 16)
  | [], i, _ => by
    simp only [framesFrom]
    rw [frameLens_nil]
    rfl
  | d :: t, i, hw => by
    have hwd : d.length + 16 < 2 ^ 32 := hw d (by simp)
    have hctlen : (gcmSeal key (noncePre ++ be32 i) d (hdr ++ be32 i)).length
        = d.length + 16 := gcmSeal_length _ _ _ _
    have hmod : (d.length + 16) % 2 ^ 32 = d.length + 16 := Nat.mod_eq_of_lt hwd
    have hframes : framesFrom key hdr noncePre i (d :: t)
        = be32 (d.length + 16)
          ++ (gcmSeal key (noncePre ++ be32 i) d (hdr ++ be32 i)
              ++ framesFrom key hdr noncePre (i + 1) t) := by
      simp only [framesFrom, hmod, List.append_assoc]
    have htake4 : (be32 (d.length + 16)
        ++ (gcmSeal key (noncePre ++ be32 i) d (hdr ++ be32 i)
            ++ framesFrom key hdr noncePre (i + 1) t)).take 4 = be32 (d.length + 16) :=
      List.take_left' (be32_length _)
    have hdrop4 : (be32 (d.length + 16)
        ++ (gcmSeal key (noncePre ++ be32 i) d (hdr ++ be32 i)
            ++ framesFrom key hdr noncePre (i + 1) t)).drop 4
        = gcmSeal key (noncePre ++ be32 i) d (hdr ++ be32 i)
          ++ framesFrom key hdr noncePre (i + 1) t :=
      List.drop_left' (be32_length _)
    have hdropL : (gcmSeal key (noncePre ++ be32 i) d (hdr ++ be32 i)
        ++ framesFrom key hdr noncePre (i + 1) t).drop (d.length + 16)
        = framesFrom key hdr noncePre (i + 1) t :=
      List.drop_left' hctlen
    have ih := frameLens_framesFrom key hdr noncePre t (i + 1)
      (fun x hx => hw x (by simp [hx]))
    rw [hframes]
    unfold frameLens
    rw [htake4, hdrop4, u32be_be32 hwd, hdropL]
    rw [if_neg (by simp [hctlen]), if_neg (by simp [hctlen]; omega),
      if_neg (by simp [hctlen])]
    rw [ih]
    rfl

/-- Opening a sealed record with a different key fails (the idealized tag
pins down the sealing key). -/
theorem gcmOpen_seal_wrong_key {key key2 : Bytes} (hne : key ≠ key2)
    (nonce plain aad : Bytes) :
    gcmOpen key2 nonce (gcmSeal key nonce plain aad) aad = none := by
  have hlen := gcmSeal_length key nonce plain aad
  have htake : (gcmSeal key nonce plain aad).take
      ((gcmSeal key nonce plain aad).length - 16) = plain := by
    rw [hlen, Nat.add_sub_cancel]
    exact List.take_left' rfl
  have hdrop : (gcmSeal key nonce plain aad).drop
      ((gcmSeal key nonce plain aad).length - 16) = gcmTag key nonce aad plain := by
    rw [hlen, Nat.add_sub_cancel]
    exact List.drop_left' rfl
  unfold gcmOpen
  rw [htake, hdrop, if_neg (by omega), if_neg (fun h => hne (gcmTag_inj h).1)]

/-- Decrypting a nonempty frame stream with the wrong file key fails on the
very first record. -/
theorem decLoop_wrong_key {key key2 hdr noncePre : Bytes} (hkne : key ≠ key2)
    (d : Bytes) (t : List Bytes) (hw : d.length + 16 < 2 ^ 32) (i : Nat) :
    decLoop key2 hdr noncePre i (framesFrom key hdr noncePre i (d :: t))
      = ([], some (.authFailed i)) := by
  have hctlen : (gcmSeal key (noncePre ++ be32 i) d (hdr ++ be32 i)).length
      = d.length + 16 := gcmSeal_length _ _ _ _
  have hmod : (d.length + 16) % 2 ^ 32 = d.length + 16 := Nat.mod_eq_of_lt hw
  have hframes : framesFrom key hdr noncePre i (d :: t)
      = be32 (d.length + 16)
        ++ (gcmSeal key (noncePre ++ be32 i) d (hdr ++ be32 i)
            ++ framesFrom key hdr noncePre (i + 1) t) := by
    simp only [framesFrom, hmod, List.append_assoc]
  have htake4 : (be32 (d.length + 16)
      ++ (gcmSeal key (noncePre ++ be32 i) d (hdr ++ be32 i)
          ++ framesFrom key hdr noncePre (i + 1) t)).take 4 = be32 (d.length + 16) :=
    List.take_left' (be32_length _)
  have hdrop4 : (be32 (d.length + 16)
      ++ (gcmSeal key (noncePre ++ be32 i) d (hdr ++ be32 i)
          ++ framesFrom key hdr noncePre (i + 1) t)).drop 4
      = gcmSeal key (noncePre ++ be32 i) d (hdr ++ be32 i)
        ++ framesFrom key hdr noncePre (i + 1) t :=
    List.drop_left' (be32_length _)
  have htakeL : (gcmSeal key (noncePre ++ be32 i) d (hdr ++ be32 i)
      ++ framesFrom key hdr noncePre (i + 1) t).take (d.length + 16)
      = gcmSeal key (noncePre ++ be32 i) d (hdr ++ be32 i) :=
    List.take_left' hctlen
  rw [hframes]
  unfold decLoop
  rw [htake4, hdrop4, u32be_be32 hw, htakeL]
  rw [if_neg (by simp [hctlen]), if_neg (by simp [hctlen]; omega),
    if_neg (by simp [hctlen])]
  simp only [gcmOpen_seal_wrong_key hkne]

/-- One step of `decLoop` when the record's tag check fails: the loop stops
with `AuthFailed` at the current index. -/
theorem decLoop_authFailed (key hdr noncePre : Bytes) (i : Nat) (input : Bytes)
    (h0 : ¬input.length = 0) (h4 : ¬input.length < 4)
    (hL : ¬(input.drop 4).length < u32be (input.take 4))
    (hopen : gcmOpen key (noncePre ++ be32 i)
        ((input.drop 4).take (u32be (input.take 4))) (hdr ++ be32 i) = none) :
    decLoop key hdr noncePre i input = ([], some (.authFailed i)) := by
  unfold decLoop
  rw [if_neg h0, if_neg h4, if_neg hL, hopen]

/-- Framing a single 2^32-byte chunk: `uint32(len(ct))` wraps, so the frame
carries length prefix 16 instead of `2^32 + 16`. -/
theorem framesFrom_wrap_single (key hdr noncePre : Bytes) :
    framesFrom key hdr noncePre 0 [List.replicate (2 ^ 32) 0]
      = be32 16
        ++ gcmSeal key (noncePre ++ be32 0) (List.replicate (2 ^ 32) 0)
            (hdr ++ be32 0) := by
  have hflen : (List.replicate (2 ^ 32) (0 : Nat)).length = 2 ^ 32 :=
    List.length_replicate _ _
  have hmod : ((2 : Nat) ^ 32 + 16) % 2 ^ 32 = 16 := by decide
  simp only [framesFrom, hflen, hmod, List.append_nil]

/-- Decrypting the wrapped frame of a 2^32-byte zero chunk fails at record 0
even under the correct key: the length prefix says 16, so `Open` sees the
first 16 plaintext zero bytes as a 16-byte ciphertext whose "tag" (16 zero
bytes) can never be a real tag. -/
theorem decLoop_wrap_first {key : Bytes} (hkey : key ≠ []) (hdr noncePre : Bytes) :
    decLoop key hdr noncePre 0
        (be32 16
          ++ gcmSeal key (noncePre ++ be32 0) (List.replicate (2 ^ 32) 0)
              (hdr ++ be32 0))
      = ([], some (.authFailed 0)) := by
  have hflen : (List.replicate (2 ^ 32) (0 : Nat)).length = 2 ^ 32 :=
    List.length_replicate _ _
  have hctlen : (gcmSeal key (noncePre ++ be32 0) (List.replicate (2 ^ 32) 0)
      (hdr ++ be32 0)).length = 2 ^ 32 + 16 := by
    rw [gcmSeal_length, hflen]
  have htake16 : (gcmSeal key (noncePre ++ be32 0) (List.replicate (2 ^ 32) 0)
      (hdr ++ be32 0)).take 16 = List.replicate 16 0 := by
    unfold gcmSeal
    rw [List.take_append_of_le_length (by rw [hflen]; norm_num), List.take_replicate,
      show min 16 (2 ^ 32) = 16 from by norm_num]
  have hopen : gcmOpen key (noncePre ++ be32 0) (List.replicate 16 0)
      (hdr ++ be32 0) = none := by
    unfold gcmOpen
    rw [if_neg (by simp)]
    rw [if_neg (by
      simp only [List.length_replicate, Nat.sub_self, List.drop_zero, List.take_zero]
      exact fun hh => gcmTag_ne_zeros hkey _ _ _ hh.symm)]
  have htake4 : (be32 16
      ++ gcmSeal key (noncePre ++ be32 0) (List.replicate (2 ^ 32) 0)
          (hdr ++ be32 0)).take 4 = be32 16 := List.take_left' (be32_length 16)
  have hdrop4 : (be32 16
      ++ gcmSeal key (noncePre ++ be32 0) (List.replicate (2 ^ 32) 0)
          (hdr ++ be32 0)).drop 4
      = gcmSeal key (noncePre ++ be32 0) (List.replicate (2 ^ 32) 0)
          (hdr ++ be32 0) := List.drop_left' (be32_length 16)
  rw [decLoop_authFailed _ _ _ _ _
    (by rw [List.length_append, hctlen]; norm_num [be32])
    (by rw [List.length_append, hctlen]; norm_num [be32])
    (by rw [hdrop4, htake4, u32be_be32 (by norm_num : (16 : Nat) < 2 ^ 32), hctlen]
        norm_num)
    (by rw [hdrop4, htake4, u32be_be32 (by norm_num : (16 : Nat) < 2 ^ 32), htake16]
        exact hopen)]

/-- Go `Encrypt`'s loop errors out with the chunk-limit error as soon as the
record index reaches `2^32 - 1`, even when that record is the last one. -/
theorem encLoop_chunkLimit (key hdr noncePre : Bytes) :
    ∀ (ds : List Bytes) (i : Nat), (∀ d ∈ ds, d ≠ []) → ds ≠ [] →
      i + ds.length = 2 ^ 32 →
      (encLoop key hdr noncePre i ds).2 = some .chunkLimit
  | [], _, _, hne, _ => absurd rfl hne
  | d :: t, i, hall, _, hsum => by
    have hd : d.length ≠ 0 := by
      simpa [List.length_eq_zero] using hall d (by simp)
    by_cases hi : i = 2 ^ 32 - 1
    · simp only [encLoop, if_neg hd, if_pos hi]
    · have ht : t ≠ [] := by
        intro h
        rw [h] at hsum
        simp only [List.length_cons, List.length_nil] at hsum
        omega
      have ih := encLoop_chunkLimit key hdr noncePre t (i + 1)
        (fun x hx => hall x (by simp [hx])) ht
        (by simp only [List.length_cons] at hsum; omega)
      simp only [encLoop, if_neg hd, if_neg hi, ih]

/-! ## Claims -/

/-- Claim C1 (amended): decrypting with the same master key what `Encrypt`
produced recovers exactly the plaintext, for every key, every delivery of
the input bytes and every chunk-size parameter — provided every record's
ciphertext length fits the 4-byte length prefix (plaintext reads smaller
than `2^32 − 16` bytes; `uint32(len(ct))` wraps otherwise) and the input
fits in at most `2^32 − 1` records (`Encrypt` errors out otherwise). -/
theorem c1_roundtrip (masterKey salt noncePre : Bytes) (ds : List Bytes) (cs : Int)
    (h16 : salt.length = 16) (h8 : noncePre.length = 8)
    (hbuf : ∀ d ∈ ds, (d.length : Int) ≤ effectiveChunk cs)
    (hwrap : ∀ d ∈ ds, d.length + 16 < 2 ^ 32)
    (hcount : (nonEmpties ds).length ≤ 2 ^ 32 - 1) :
    (Encrypt masterKey salt noncePre ds cs).2 = none ∧
    Decrypt masterKey (Encrypt masterKey salt noncePre ds cs).1 = (ds.flatten, none) := by
  rw [Encrypt_frames _ _ _ _ _ hcount]
  refine ⟨rfl, ?_⟩
  dsimp only
  unfold Decrypt
  rw [readHeader_ok h16 h8]
  dsimp only
  rw [decLoop_frames _ _ _ _ _ (fun d hd => hwrap d (nonEmpties_sub hd)) (by omega)]
  rw [nonEmpties_flatten]

/-- Witness for C1 at a concrete input: key of 32 zero bytes, two reader
deliveries `[3,4]` and `[5]`, chunk size 2. -/
theorem c1_roundtrip_witness :
    ((List.replicate 16 1 : Bytes).length = 16
      ∧ (List.replicate 8 2 : Bytes).length = 8
      ∧ (∀ d ∈ [[3, 4], [5]], ((d : Bytes).length : Int) ≤ effectiveChunk 2)
      ∧ (∀ d ∈ [[3, 4], [5]], (d : Bytes).length + 16 < 2 ^ 32)
      ∧ (nonEmpties [[3, 4], [5]]).length ≤ 2 ^ 32 - 1)
    ∧ ((Encrypt (List.replicate 32 0) (List.replicate 16 1) (List.replicate 8 2)
          [[3, 4], [5]] 2).2 = none
      ∧ Decrypt (List.replicate 32 0)
          (Encrypt (List.replicate 32 0) (List.replicate 16 1) (List.replicate 8 2)
            [[3, 4], [5]] 2).1
        = ([[3, 4], [5]].flatten, none)) :=
  ⟨⟨by decide, by decide, by decide, by decide, by decide⟩,
    c1_roundtrip (List.replicate 32 0) (List.replicate 16 1) (List.replicate 8 2)
      [[3, 4], [5]] 2 (by decide) (by decide) (by decide) (by decide) (by decide)⟩

/-- Claim C1, as stated, is false: with `chunk_size = 2^32` and a single
4 GiB read (exactly what a byte-slice reader delivers for a 4 GiB input),
`Encrypt` succeeds but emits a length prefix of `uint32(2^32 + 16) = 16`,
so `Decrypt` misparses the frame and fails instead of writing back `P`. -/
theorem c1_counterexample :
    (Encrypt (List.replicate 32 0) (List.replicate 16 0) (List.replicate 8 0)
        [List.replicate (2 ^ 32) 0] (2 ^ 32 : Int)).2 = none ∧
    Decrypt (List.replicate 32 0)
        (Encrypt (List.replicate 32 0) (List.replicate 16 0) (List.replicate 8 0)
          [List.replicate (2 ^ 32) 0] (2 ^ 32 : Int)).1
      ≠ (List.replicate (2 ^ 32) 0, none) := by
  have hbig_ne : (List.replicate (2 ^ 32) (0 : Nat)) ≠ [] := by
    intro h
    have h2 := congrArg List.length h
    rw [List.length_replicate, List.length_nil] at h2
    exact absurd h2 (by norm_num)
  have hcount : (nonEmpties [List.replicate (2 ^ 32) (0 : Nat)]).length ≤ 2 ^ 32 - 1 := by
    have hle : (nonEmpties [List.replicate (2 ^ 32) (0 : Nat)]).length
        ≤ ([List.replicate (2 ^ 32) (0 : Nat)]).length := List.length_filter_le _ _
    simp only [List.length_cons, List.length_nil] at hle
    omega
  have hnE : nonEmpties [List.replicate (2 ^ 32) (0 : Nat)]
      = [List.replicate (2 ^ 32) 0] := by
    have hie : (List.replicate (2 ^ 32) (0 : Nat)).isEmpty = false := by
      rw [Bool.eq_false_iff]
      exact fun hh => hbig_ne (List.isEmpty_iff.mp hh)
    unfold nonEmpties
    rw [List.filter_cons, hie]
    rfl
  have hE := Encrypt_frames (List.replicate 32 0) (List.replicate 16 0)
    (List.replicate 8 0) [List.replicate (2 ^ 32) 0] (2 ^ 32 : Int) hcount
  rw [hnE] at hE
  refine ⟨by rw [hE], ?_⟩
  rw [hE]
  dsimp only
  have h16 : (List.replicate 16 (0 : Nat)).length = 16 := by simp
  have h8 : (List.replicate 8 (0 : Nat)).length = 8 := by simp
  rw [Decrypt_eq (List.replicate 32 0) h16 h8]
  have hflen : (List.replicate (2 ^ 32) (0 : Nat)).length = 2 ^ 32 :=
    List.length_replicate _ _
  have hmod : ((2 : Nat) ^ 32 + 16) % 2 ^ 32 = 16 := by decide
  have hframes : framesFrom
        (deriveFileKey (List.replicate 32 0) (List.replicate 16 0))
        (generateHeader (effectiveChunk (2 ^ 32 : Int)).toNat (List.replicate 16 0)
          (List.replicate 8 0))
        (List.replicate 8 0) 0 [List.replicate (2 ^ 32) 0]
      = be32 16
        ++ gcmSeal (deriveFileKey (List.replicate 32 0) (List.replicate 16 0))
            (List.replicate 8 0 ++ be32 0) (List.replicate (2 ^ 32) 0)
            (generateHeader (effectiveChunk (2 ^ 32 : Int)).toNat (List.replicate 16 0)
                (List.replicate 8 0)
              ++ be32 0) := by
    simp only [framesFrom, hflen, hmod, List.append_nil]
  rw [hframes]
  have hctlen : (gcmSeal (deriveFileKey (List.replicate 32 0) (List.replicate 16 0))
      (List.replicate 8 0 ++ be32 0) (List.replicate (2 ^ 32) 0)
      (generateHeader (effectiveChunk (2 ^ 32 : Int)).toNat (List.replicate 16 0)
          (List.replicate 8 0)
        ++ be32 0)).length = 2 ^ 32 + 16 := by
    rw [gcmSeal_length, hflen]
  have htake16 : (gcmSeal (deriveFileKey (List.replicate 32 0) (List.replicate 16 0))
      (List.replicate 8 0 ++ be32 0) (List.replicate (2 ^ 32) 0)
      (generateHeader (effectiveChunk (2 ^ 32 : Int)).toNat (List.replicate 16 0)
          (List.replicate 8 0)
        ++ be32 0)).take 16 = List.replicate 16 0 := by
    unfold gcmSeal
    rw [List.take_append_of_le_length (by rw [hflen]; norm_num), List.take_replicate,
      show min 16 (2 ^ 32) = 16 from by norm_num]
  have hopen : gcmOpen (deriveFileKey (List.replicate 32 0) (List.replicate 16 0))
      (List.replicate 8 0 ++ be32 0) (List.replicate 16 0)
      (generateHeader (effectiveChunk (2 ^ 32 : Int)).toNat (List.replicate 16 0)
          (List.replicate 8 0)
        ++ be32 0) = none := by
    unfold gcmOpen
    rw [if_neg (by simp)]
    rw [if_neg (by
      simp only [List.length_replicate, Nat.sub_self, List.drop_zero, List.take_zero]
      exact fun hh =>
        gcmTag_ne_zeros (deriveFileKey_ne_nil _ _) _ _ _ hh.symm)]
  have htake4 : (be32 16
      ++ gcmSeal (deriveFileKey (List.replicate 32 0) (List.replicate 16 0))
          (List.replicate 8 0 ++ be32 0) (List.replicate (2 ^ 32) 0)
          (generateHeader (effectiveChunk (2 ^ 32 : Int)).toNat (List.replicate 16 0)
              (List.replicate 8 0)
            ++ be32 0)).take 4 = be32 16 := List.take_left' (be32_length 16)
  have hdrop4 : (be32 16
      ++ gcmSeal (deriveFileKey (List.replicate 32 0) (List.replicate 16 0))
          (List.replicate 8 0 ++ be32 0) (List.replicate (2 ^ 32) 0)
          (generateHeader (effectiveChunk (2 ^ 32 : Int)).toNat (List.replicate 16 0)
              (List.replicate 8 0)
            ++ be32 0)).drop 4
      = gcmSeal (deriveFileKey (List.replicate 32 0) (List.replicate 16 0))
          (List.replicate 8 0 ++ be32 0) (List.replicate (2 ^ 32) 0)
          (generateHeader (effectiveChunk (2 ^ 32 : Int)).toNat (List.replicate 16 0)
              (List.replicate 8 0)
            ++ be32 0) := List.drop_left' (be32_length 16)
  rw [decLoop_authFailed _ _ _ _ _
    (by rw [List.length_append, hctlen]; norm_num [be32])
    (by rw [List.length_append, hctlen]; norm_num [be32])
    (by rw [hdrop4, htake4, u32be_be32 (by norm_num : (16 : Nat) < 2 ^ 32), hctlen]
        norm_num)
    (by rw [hdrop4, htake4, u32be_be32 (by norm_num : (16 : Nat) < 2 ^ 32), htake16]
        exact hopen)]
  intro hcontra
  have hsnd := congrArg Prod.snd hcontra
  dsimp only at hsnd
  exact Option.noConfusion hsnd

/-- Claim C2 (amended): for a fixed master key, file id, chunk size and chunk
list, delivering the chunks to `IngestChunkStateless` in any order produces
the same assembled destination file — the order-independent `assembledOf` —
and decrypting that file with the same master key yields the original
plaintext (the concatenation of the chunks), provided every record's
ciphertext fits the 4-byte length prefix (each chunk smaller than
`2^32 − 16` bytes; `uint32(len(ct))` wraps otherwise, see the
counterexample) and there are at most `2^32 − 1` chunks (`Decrypt` hits the
chunk-limit guard otherwise).  Remaining hypotheses are the ingest
contract: nonempty chunks of at most `chunk_size` bytes, positive chunk
size, and the two orders are permutations of `0 … total_chunks − 1`. -/
theorem c2_ingest_order_equivalence (masterKey : Bytes) (lp fid : String) (cs : Int)
    (chunks : List Bytes) (order1 order2 : List Nat)
    (hlp : lp ≠ "") (hfid : fid ≠ "") (hcs : 0 < cs)
    (hchunks : ∀ d ∈ chunks, d ≠ [] ∧ d.length ≤ cs.toNat)
    (hwrap : ∀ d ∈ chunks, d.length + 16 < 2 ^ 32)
    (hcount : chunks.length ≤ 2 ^ 32 - 1)
    (hne : chunks ≠ [])
    (h1 : order1.Perm (List.range chunks.length))
    (h2 : order2.Perm (List.range chunks.length)) :
    runIngest masterKey lp fid cs (chunks.length : Int) chunks order1 emptyStaging
      = .ok (emptyStaging, some (assembledOf masterKey fid cs chunks)) ∧
    runIngest masterKey lp fid cs (chunks.length : Int) chunks order2 emptyStaging
      = runIngest masterKey lp fid cs (chunks.length : Int) chunks order1 emptyStaging ∧
    Decrypt masterKey (assembledOf masterKey fid cs chunks) = (chunks.flatten, none) := by
  have hmain : ∀ order : List Nat, order.Perm (List.range chunks.length) →
      runIngest masterKey lp fid cs (chunks.length : Int) chunks order emptyStaging
        = .ok (emptyStaging, some (assembledOf masterKey fid cs chunks)) := by
    intro order hperm
    have hord_ne : order ≠ [] := by
      intro h
      rw [h] at hperm
      have hlen := hperm.length_eq
      simp only [List.length_nil, List.length_range] at hlen
      exact hne (List.length_eq_zero.mp hlen.symm)
    rw [← stagingOf_nil masterKey fid cs chunks]
    exact runIngest_go masterKey lp fid cs chunks hlp hfid hcs hchunks order []
      (by simpa using hperm.symm.nodup (List.nodup_range _))
      (fun i => ⟨fun h => hperm.mem_iff.mpr (List.mem_range.mpr h),
        fun h => List.mem_range.mp (hperm.mem_iff.mp (by simpa using h))⟩)
      hord_ne
  refine ⟨hmain order1 h1, (hmain order2 h2).trans (hmain order1 h1).symm, ?_⟩
  rw [assembledOf_frames]
  simp only [recordKey, deriveHeaderFor, hkdfBytes]
  rw [Decrypt_eq masterKey (hkdfSHA256_length _ _ _ _) (hkdfSHA256_length _ _ _ _)]
  rw [decLoop_frames _ _ _ _ _ hwrap (by omega)]

/-- Witness for C2 at a concrete input: three one-byte chunks ingested in
orders `[2,0,1]` and `[1,2,0]`. -/
theorem c2_ingest_order_equivalence_witness :
    (("p" : String) ≠ "" ∧ ("f" : String) ≠ "" ∧ (0 : Int) < 4
      ∧ (∀ d ∈ [[1], [2], [3]], (d : Bytes) ≠ [] ∧ (d : Bytes).length ≤ (4 : Int).toNat)
      ∧ (∀ d ∈ [[1], [2], [3]], (d : Bytes).length + 16 < 2 ^ 32)
      ∧ ([[1], [2], [3]] : List Bytes).length ≤ 2 ^ 32 - 1
      ∧ ([[1], [2], [3]] : List Bytes) ≠ []
      ∧ ([2, 0, 1] : List Nat).Perm (List.range ([[1], [2], [3]] : List Bytes).length)
      ∧ ([1, 2, 0] : List Nat).Perm (List.range ([[1], [2], [3]] : List Bytes).length))
    ∧ (runIngest (List.replicate 32 0) "p" "f" 4 (([[1], [2], [3]] : List Bytes).length : Int)
          [[1], [2], [3]] [2, 0, 1] emptyStaging
        = .ok (emptyStaging, some (assembledOf (List.replicate 32 0) "f" 4 [[1], [2], [3]]))
      ∧ runIngest (List.replicate 32 0) "p" "f" 4 (([[1], [2], [3]] : List Bytes).length : Int)
          [[1], [2], [3]] [1, 2, 0] emptyStaging
        = runIngest (List.replicate 32 0) "p" "f" 4
            (([[1], [2], [3]] : List Bytes).length : Int) [[1], [2], [3]] [2, 0, 1] emptyStaging
      ∧ Decrypt (List.replicate 32 0) (assembledOf (List.replicate 32 0) "f" 4 [[1], [2], [3]])
        = (([[1], [2], [3]] : List Bytes).flatten, none)) :=
  ⟨⟨by decide, by decide, by decide, by decide, by decide, by decide, by decide,
      by decide, by decide⟩,
    c2_ingest_order_equivalence (List.replicate 32 0) "p" "f" 4 [[1], [2], [3]]
      [2, 0, 1] [1, 2, 0] (by decide) (by decide) (by decide) (by decide) (by decide)
      (by decide) (by decide) (by decide) (by decide)⟩

/-- Claim C2, as stated, is false: a single `2^32`-byte chunk passes ingest
validation with `chunk_size = 2^32` and assembles, but its record's
`uint32(len(ct))` length prefix wraps to 16, so decrypting the assembled
file fails at record 0 instead of yielding the plaintext — the same
length-prefix wrap that corrects claim C1. -/
theorem c2_counterexample :
    runIngest (List.replicate 32 0) "p" "f" (2 ^ 32 : Int)
        ((([List.replicate (2 ^ 32) 0] : List Bytes).length : Int))
        [List.replicate (2 ^ 32) 0] [0] emptyStaging
      = .ok (emptyStaging,
          some (assembledOf (List.replicate 32 0) "f" (2 ^ 32 : Int)
            [List.replicate (2 ^ 32) 0])) ∧
    Decrypt (List.replicate 32 0)
        (assembledOf (List.replicate 32 0) "f" (2 ^ 32 : Int)
          [List.replicate (2 ^ 32) 0])
      ≠ (List.replicate (2 ^ 32) 0, none) := by
  have hbig_ne : (List.replicate (2 ^ 32) (0 : Nat)) ≠ [] := by
    intro h
    have h2 := congrArg List.length h
    rw [List.length_replicate, List.length_nil] at h2
    exact absurd h2 (by norm_num)
  constructor
  · have hchunks : ∀ d ∈ ([List.replicate (2 ^ 32) 0] : List Bytes),
        d ≠ [] ∧ d.length ≤ (2 ^ 32 : Int).toNat := by
      intro d hd
      rw [List.mem_singleton] at hd
      subst hd
      refine ⟨hbig_ne, ?_⟩
      rw [List.length_replicate]
      omega
    have hlen1 : ([List.replicate (2 ^ 32) 0] : List Bytes).length = 1 := rfl
    have hrun := runIngest_go (List.replicate 32 0) "p" "f" (2 ^ 32 : Int)
      [List.replicate (2 ^ 32) 0] (by decide) (by decide) (by norm_num) hchunks
      [0] []
      (by decide)
      (fun i => by
        rw [List.nil_append, hlen1]
        constructor
        · intro h
          have hi0 : i = 0 := by omega
          rw [hi0]
          exact List.mem_singleton.mpr rfl
        · intro h
          have := List.mem_singleton.mp h
          omega)
      (fun h => List.noConfusion h)
    rw [stagingOf_nil] at hrun
    exact hrun
  · rw [assembledOf_frames]
    simp only [recordKey, deriveHeaderFor, hkdfBytes]
    rw [Decrypt_eq (List.replicate 32 0) (hkdfSHA256_length _ _ _ _)
      (hkdfSHA256_length _ _ _ _)]
    rw [framesFrom_wrap_single, decLoop_wrap_first (deriveFileKey_ne_nil _ _)]
    intro hcontra
    have hsnd := congrArg Prod.snd hcontra
    dsimp only at hsnd
    exact Option.noConfusion hsnd

/-- Modelled from claim C3's words: the 16-byte salt as HKDF-SHA256 with
input key material the `file_id` bytes (the master key then takes the
remaining, salt position). -/
def claimC3Salt (masterKey : Bytes) (fileID : String) : Bytes :=
  hkdfSHA256 16 (strBytes fileID) masterKey (strBytes "upload-salt:v1")

/-- Modelled from claim C3's words: the 8-byte nonce prefix likewise with
info `"upload-nonceprefix:v1"`. -/
def claimC3NoncePre (masterKey : Bytes) (fileID : String) : Bytes :=
  hkdfSHA256 8 (strBytes fileID) masterKey (strBytes "upload-nonceprefix:v1")

/-- Claim C3, as stated, is false: `hkdfBytes(n, masterKey, fileIDbytes, info)`
passes the master key as HKDF's input key material and the file id bytes as
HKDF's salt, not the other way round.  At master key `0^32` and
`file_id = "a"` the derived salt and nonce prefix differ from the claim's
formula. -/
theorem c3_counterexample :
    (deriveHeaderFor (List.replicate 32 0) "a" 4096).salt
      ≠ claimC3Salt (List.replicate 32 0) "a" ∧
    (deriveHeaderFor (List.replicate 32 0) "a" 4096).noncePre
      ≠ claimC3NoncePre (List.replicate 32 0) "a" := by
  constructor
  · intro h
    simp only [deriveHeaderFor, hkdfBytes, claimC3Salt] at h
    exact absurd (hkdfSHA256_inj (by norm_num) h).1 (by decide)
  · intro h
    simp only [deriveHeaderFor, hkdfBytes, claimC3NoncePre] at h
    exact absurd (hkdfSHA256_inj (by norm_num) h).1 (by decide)

/-- Modelled from the amended claim C3: the 16-byte salt is HKDF-SHA256 with
input key material the master key, HKDF salt the `file_id` bytes and info
`"upload-salt:v1"`. -/
def amendedC3Salt (masterKey : Bytes) (fileID : String) : Bytes :=
  hkdfSHA256 16 masterKey (strBytes fileID) (strBytes "upload-salt:v1")

/-- Modelled from the amended claim C3: the 8-byte nonce prefix likewise with
info `"upload-nonceprefix:v1"`. -/
def amendedC3NoncePre (masterKey : Bytes) (fileID : String) : Bytes :=
  hkdfSHA256 8 (masterKey) (strBytes fileID) (strBytes "upload-nonceprefix:v1")

/-- Claim C3 (amended): for every master key, file id and chunk size, the
deterministic header derivation computes the salt and nonce prefix by
HKDF-SHA256 with the master key as input key material, the `file_id` bytes
in HKDF's salt position, and the stated info strings. -/
theorem c3_header_derivation (masterKey : Bytes) (fileID : String) (chunkSize : Int) :
    (deriveHeaderFor masterKey fileID chunkSize).salt = amendedC3Salt masterKey fileID ∧
    (deriveHeaderFor masterKey fileID chunkSize).noncePre
      = amendedC3NoncePre masterKey fileID :=
  ⟨rfl, rfl⟩

/-- Claim C4 (amended): in every file `Encrypt` produces (within the frame
and record-count bounds), the records parse back one per nonempty read, the
plaintext size of every record is at most the effective chunk size, and —
when the reader fills the buffer on every read except possibly the last, as
a byte-slice reader does — every record except possibly the last is exactly
the chunk size. -/
theorem c4_record_sizes (masterKey salt noncePre : Bytes) (ds : List Bytes) (cs : Int)
    (hbuf : ∀ d ∈ ds, (d.length : Int) ≤ effectiveChunk cs)
    (hwrap : ∀ d ∈ ds, d.length + 16 < 2 ^ 32)
    (hcount : (nonEmpties ds).length ≤ 2 ^ 32 - 1) :
    frameLens ((Encrypt masterKey salt noncePre ds cs).1.drop 29)
      = some ((nonEmpties ds).map fun d => d.length + 16) ∧
    (∀ d ∈ nonEmpties ds, d.length ≤ (effectiveChunk cs).toNat) ∧
    ((∀ d ∈ (nonEmpties ds).dropLast, d.length = (effectiveChunk cs).toNat) →
      ∀ L ∈ ((nonEmpties ds).map fun d => d.length + 16).dropLast,
        L = (effectiveChunk cs).toNat + 16) := by
  rw [Encrypt_frames _ _ _ _ _ hcount]
  refine ⟨?_, fun d hd => ?_, fun hfull L hL => ?_⟩
  · dsimp only
    rw [List.drop_left' (generateHeader_length _ _ _)]
    exact frameLens_framesFrom _ _ _ _ _ (fun d hd => hwrap d (nonEmpties_sub hd))
  · have := hbuf d (nonEmpties_sub hd)
    omega
  · rw [← List.map_dropLast] at hL
    obtain ⟨d, hd, hLd⟩ := List.mem_map.mp hL
    rw [← hLd, hfull d hd]

/-- Witness for C4 at a concrete input: deliveries `[1,2]` and `[3]` with
chunk size 2 (a full read then a final short read). -/
theorem c4_record_sizes_witness :
    ((∀ d ∈ [[1, 2], [3]], ((d : Bytes).length : Int) ≤ effectiveChunk 2)
      ∧ (∀ d ∈ [[1, 2], [3]], (d : Bytes).length + 16 < 2 ^ 32)
      ∧ (nonEmpties [[1, 2], [3]]).length ≤ 2 ^ 32 - 1)
    ∧ (frameLens ((Encrypt (List.replicate 32 0) (List.replicate 16 1)
          (List.replicate 8 2) [[1, 2], [3]] 2).1.drop 29)
        = some ((nonEmpties [[1, 2], [3]]).map fun d => d.length + 16)
      ∧ (∀ d ∈ nonEmpties [[1, 2], [3]], (d : Bytes).length ≤ (effectiveChunk 2).toNat)
      ∧ ((∀ d ∈ (nonEmpties [[1, 2], [3]]).dropLast,
            (d : Bytes).length = (effectiveChunk 2).toNat) →
        ∀ L ∈ ((nonEmpties [[1, 2], [3]]).map fun d => d.length + 16).dropLast,
          L = (effectiveChunk 2).toNat + 16)) :=
  ⟨⟨by decide, by decide, by decide⟩,
    c4_record_sizes (List.replicate 32 0) (List.replicate 16 1) (List.replicate 8 2)
      [[1, 2], [3]] 2 (by decide) (by decide) (by decide)⟩

/-- Claim C4, as stated ("however the reader delivers it"), is false: with
chunk size 2 and a reader that returns two short one-byte reads, `Encrypt`
succeeds and produces two records of ciphertext length 17, i.e. plaintext
size 1 each — the first record is not the last, yet its size is not the
chunk size 2. -/
theorem c4_counterexample :
    (Encrypt (List.replicate 32 0) (List.replicate 16 1) (List.replicate 8 2)
        [[5], [6]] 2).2 = none ∧
    frameLens ((Encrypt (List.replicate 32 0) (List.replicate 16 1)
        (List.replicate 8 2) [[5], [6]] 2).1.drop 29) = some [17, 17] ∧
    17 - 16 ≠ (2 : Nat) := by
  have hE := Encrypt_frames (List.replicate 32 0) (List.replicate 16 1)
    (List.replicate 8 2) [[5], [6]] 2 (by decide)
  rw [hE]
  have hnE : nonEmpties [[5], [6]] = ([[5], [6]] : List Bytes) := by decide
  refine ⟨rfl, ?_, by decide⟩
  dsimp only
  rw [List.drop_left' (generateHeader_length _ _ _)]
  rw [frameLens_framesFrom _ _ _ _ _ (by decide)]
  rw [hnE]
  rfl

/-- Claim C5: the code errs on the claim's boundary.  An input of exactly
`2^32` one-byte records (chunk size 1) has indices `0 … 2^32 − 1` — the
index never exceeds `2^32 − 1`, so per the claim `Encrypt` should complete
— yet the source returns the chunk-limit error right after sealing the
record with index `2^32 − 1`, regardless of the input being exhausted. -/
theorem c5_chunk_limit_off_by_one :
    (Encrypt (List.replicate 32 0) (List.replicate 16 0) (List.replicate 8 0)
        (List.replicate (2 ^ 32) [0]) 1).2 = some .chunkLimit := by
  have h := encLoop_chunkLimit
    (deriveFileKey (List.replicate 32 0) (List.replicate 16 0))
    (generateHeader (effectiveChunk 1).toNat (List.replicate 16 0) (List.replicate 8 0))
    (List.replicate 8 0) (List.replicate (2 ^ 32) [0]) 0
    (fun d hd => by rw [List.eq_of_mem_replicate hd]; exact fun hh => List.noConfusion hh)
    (by
      intro hh
      have h2 := congrArg List.length hh
      rw [List.length_replicate, List.length_nil] at h2
      exact absurd h2 (by norm_num))
    (by rw [List.length_replicate, Nat.zero_add])
  simp only [Encrypt, h]

/-- Claim C6 (amended): decrypting with a different master key fails with the
authentication error at record index 0 — provided the plaintext is nonempty
(at least one record exists; a zero-record file decrypts cleanly under any
key, see the counterexample). -/
theorem c6_wrong_key (masterKey masterKey2 salt noncePre : Bytes) (ds : List Bytes)
    (cs : Int) (hkk : masterKey ≠ masterKey2)
    (h16 : salt.length = 16) (h8 : noncePre.length = 8)
    (hwrap : ∀ d ∈ ds, d.length + 16 < 2 ^ 32)
    (hcount : (nonEmpties ds).length ≤ 2 ^ 32 - 1)
    (hne : nonEmpties ds ≠ []) :
    Decrypt masterKey2 (Encrypt masterKey salt noncePre ds cs).1
      = ([], some (.authFailed 0)) := by
  rw [Encrypt_frames _ _ _ _ _ hcount]
  dsimp only
  rw [Decrypt_eq masterKey2 h16 h8]
  obtain ⟨d, t, hdt⟩ : ∃ d t, nonEmpties ds = d :: t := by
    cases hcl : nonEmpties ds with
    | nil => exact absurd hcl hne
    | cons d t => exact ⟨d, t, rfl⟩
  rw [hdt]
  exact decLoop_wrong_key
    (fun h => hkk (deriveFileKey_inj h).1)
    d t (hwrap d (nonEmpties_sub (hdt ▸ List.mem_cons_self d t))) 0

/-- Witness for C6 at a concrete input: encrypt `[7]` under the all-zero key,
decrypt under the all-one key. -/
theorem c6_wrong_key_witness :
    ((List.replicate 32 0 : Bytes) ≠ List.replicate 32 1
      ∧ (List.replicate 16 2 : Bytes).length = 16
      ∧ (List.replicate 8 3 : Bytes).length = 8
      ∧ (∀ d ∈ [[7]], (d : Bytes).length + 16 < 2 ^ 32)
      ∧ (nonEmpties [[7]]).length ≤ 2 ^ 32 - 1
      ∧ nonEmpties [[7]] ≠ [])
    ∧ Decrypt (List.replicate 32 1)
        (Encrypt (List.replicate 32 0) (List.replicate 16 2) (List.replicate 8 3)
          [[7]] 4).1
      = ([], some (.authFailed 0)) :=
  ⟨⟨by decide, by decide, by decide, by decide, by decide, by decide⟩,
    c6_wrong_key (List.replicate 32 0) (List.replicate 32 1) (List.replicate 16 2)
      (List.replicate 8 3) [[7]] 4 (by decide) (by decide) (by decide) (by decide)
      (by decide) (by decide)⟩

/-- Claim C6, as stated ("for every plaintext P"), is false for the empty
plaintext: an encrypted empty file is a bare header with zero records, and
`Decrypt` under a different key reads the header, hits clean EOF and
returns success with zero bytes — no authentication failure at index 0. -/
theorem c6_counterexample :
    (List.replicate 32 0 : Bytes) ≠ List.replicate 32 1 ∧
    Decrypt (List.replicate 32 1)
        (Encrypt (List.replicate 32 0) (List.replicate 16 2) (List.replicate 8 3)
          ([] : List Bytes) 4).1
      = ([], none) := by
  refine ⟨by decide, ?_⟩
  rw [Encrypt_frames _ _ _ _ _ (by decide)]
  dsimp only
  rw [show framesFrom
      (deriveFileKey (List.replicate 32 0) (List.replicate 16 2))
      (generateHeader (effectiveChunk 4).toNat (List.replicate 16 2) (List.replicate 8 3))
      (List.replicate 8 3) 0 (nonEmpties []) = [] from rfl]
  rw [Decrypt_eq (List.replicate 32 1) (by decide) (by decide)]
  exact decLoop_nil _ _ _ _

/-- Claim C7: two `IngestChunkStateless` calls for the same `(file_id, index)`
both succeed, and after the second call the staged part still holds exactly
the record the first call wrote — the second body (even a different one) is
never written.  `s` is any staging state without that part yet and with at
least one other part missing (so neither call assembles and removes the
staging directory). -/
theorem c7_idempotent_part_write (masterKey : Bytes) (lp fid : String) (cs tot : Int)
    (idx : Nat) (p1 p2 : Bytes) (s : Staging)
    (hlp : lp ≠ "") (hfid : fid ≠ "") (hcs : 0 < cs)
    (hp1 : p1 ≠ []) (hp1l : p1.length ≤ cs.toNat)
    (hp2 : p2 ≠ []) (hp2l : p2.length ≤ cs.toNat)
    (htot : 0 < tot) (hidx : idx < tot.toNat)
    (hmiss : s idx = none)
    (hnotall : ∃ j, j < tot.toNat ∧ j ≠ idx ∧ s j = none) :
    IngestChunkStateless masterKey ⟨lp, fid, cs, idx, tot, 0⟩ p1 s
      = .ok (writePart s idx
          (encryptRecord masterKey (deriveHeaderFor masterKey fid cs) idx p1), none) ∧
    (writePart s idx
        (encryptRecord masterKey (deriveHeaderFor masterKey fid cs) idx p1)) idx
      = some (encryptRecord masterKey (deriveHeaderFor masterKey fid cs) idx p1) ∧
    IngestChunkStateless masterKey ⟨lp, fid, cs, idx, tot, 0⟩ p2
        (writePart s idx
          (encryptRecord masterKey (deriveHeaderFor masterKey fid cs) idx p1))
      = .ok (writePart s idx
          (encryptRecord masterKey (deriveHeaderFor masterKey fid cs) idx p1), none) := by
  have hs1idx : (writePart s idx
      (encryptRecord masterKey (deriveHeaderFor masterKey fid cs) idx p1)) idx
      = some (encryptRecord masterKey (deriveHeaderFor masterKey fid cs) idx p1) := by
    simp [writePart, hmiss]
  obtain ⟨j, hj, hjne, hjnone⟩ := hnotall
  have hall1 : haveAllParts (writePart s idx
      (encryptRecord masterKey (deriveHeaderFor masterKey fid cs) idx p1)) tot.toNat
      = false := by
    simp only [haveAllParts, List.all_eq_false]
    refine ⟨j, by simpa using hj, ?_⟩
    simp [writePart, hjne, hjnone]
  refine ⟨?_, hs1idx, ?_⟩
  · unfold IngestChunkStateless
    dsimp only
    rw [if_neg (by omega),
      if_neg (by
        simp only [not_or]
        exact ⟨by simpa [List.length_eq_zero] using hp1, by omega⟩),
      if_neg (by omega), if_neg (by omega), if_neg (by simp [hlp, hfid]),
      if_neg (by rw [hall1]; simp)]
  · unfold IngestChunkStateless
    dsimp only
    rw [if_neg (by omega),
      if_neg (by
        simp only [not_or]
        exact ⟨by simpa [List.length_eq_zero] using hp2, by omega⟩),
      if_neg (by omega), if_neg (by omega), if_neg (by simp [hlp, hfid]),
      writePart_existing hs1idx, if_neg (by rw [hall1]; simp)]

/-- Witness for C7 at a concrete input: empty staging, index 0 of 2 total,
first body `[1]`, retried body `[2]`. -/
theorem c7_idempotent_part_write_witness :
    (("p" : String) ≠ "" ∧ ("f" : String) ≠ "" ∧ (0 : Int) < 4
      ∧ ([1] : Bytes) ≠ [] ∧ ([1] : Bytes).length ≤ (4 : Int).toNat
      ∧ ([2] : Bytes) ≠ [] ∧ ([2] : Bytes).length ≤ (4 : Int).toNat
      ∧ (0 : Int) < 2 ∧ 0 < (2 : Int).toNat
      ∧ emptyStaging 0 = none
      ∧ (∃ j, j < (2 : Int).toNat ∧ j ≠ 0 ∧ emptyStaging j = none))
    ∧ (IngestChunkStateless (List.replicate 32 0) ⟨"p", "f", 4, 0, 2, 0⟩ [1] emptyStaging
        = .ok (writePart emptyStaging 0
            (encryptRecord (List.replicate 32 0)
              (deriveHeaderFor (List.replicate 32 0) "f" 4) 0 [1]), none)
      ∧ (writePart emptyStaging 0
          (encryptRecord (List.replicate 32 0)
            (deriveHeaderFor (List.replicate 32 0) "f" 4) 0 [1])) 0
        = some (encryptRecord (List.replicate 32 0)
            (deriveHeaderFor (List.replicate 32 0) "f" 4) 0 [1])
      ∧ IngestChunkStateless (List.replicate 32 0) ⟨"p", "f", 4, 0, 2, 0⟩ [2]
          (writePart emptyStaging 0
            (encryptRecord (List.replicate 32 0)
              (deriveHeaderFor (List.replicate 32 0) "f" 4) 0 [1]))
        = .ok (writePart emptyStaging 0
            (encryptRecord (List.replicate 32 0)
              (deriveHeaderFor (List.replicate 32 0) "f" 4) 0 [1]), none)) :=
  ⟨⟨by decide, by decide, by decide, by decide, by decide, by decide, by decide,
      by decide, by decide, rfl, ⟨1, by decide, by decide, rfl⟩⟩,
    c7_idempotent_part_write (List.replicate 32 0) "p" "f" 4 2 0 [1] [2] emptyStaging
      (by decide) (by decide) (by decide) (by decide) (by decide) (by decide) (by decide)
      (by decide) (by decide) rfl ⟨1, by decide, by decide, rfl⟩⟩

/-- Claim C8: `Decrypt` on a stream that is exactly a 29-byte version-1
header (in particular, an encrypted file truncated to its header)
terminates cleanly with zero plaintext bytes — it does not report a corrupt
frame. -/
theorem c8_header_only_decrypts_empty (masterKey hs : Bytes) (hlen : hs.length = 29)
    (hv : hs.getD 0 0 = 1) : Decrypt masterKey hs = ([], none) := by
  have hr : readHeader hs
      = .ok (u32be ((hs.drop 25).take 4), hs, (hs.drop 1).take 16,
          (hs.drop 17).take 8, hs.drop 29) := by
    unfold readHeader
    rw [List.take_of_length_le (le_of_eq hlen)]
    rw [if_neg (by omega), if_neg (by rw [hv]; simp)]
  unfold Decrypt
  rw [hr]
  dsimp only
  rw [show hs.drop 29 = [] from List.drop_of_length_le (le_of_eq hlen)]
  exact decLoop_nil _ _ _ _

/-- Witness for C8 at a concrete input: the header `0x01` followed by 28 zero
bytes. -/
theorem c8_header_only_decrypts_empty_witness :
    ((1 :: List.replicate 28 0 : Bytes).length = 29
      ∧ (1 :: List.replicate 28 0 : Bytes).getD 0 0 = 1)
    ∧ Decrypt (List.replicate 32 0) (1 :: List.replicate 28 0) = ([], none) :=
  ⟨⟨by decide, by decide⟩,
    c8_header_only_decrypts_empty (List.replicate 32 0) (1 :: List.replicate 28 0)
      (by decide) (by decide)⟩

/-- Claim C9: when the final name already has a `type="file"` entry in the
parent manifest, `ResolveForCreate` returns `<parent>/<entry.enc>.bin` with
the existing slug, and the parent manifest is returned exactly as loaded —
no entry is added and the found entry's size and mod-time are untouched
(the found branch never calls `saveManifest`). -/
theorem c9_resolve_for_create_reuses_slug {m : DirManifest} {fileName : String}
    {e : ManifestEntry} (h : findEntry m fileName "file" = some e)
    (parentDir slug : String) (now : Int) :
    (ResolveForCreate parentDir fileName m slug now).1
      = parentDir ++ "/" ++ e.enc ++ ".bin" ∧
    (ResolveForCreate parentDir fileName m slug now).2 = m := by
  unfold ResolveForCreate
  rw [h]
  exact ⟨rfl, rfl⟩

/-- Witness for C9 at a concrete input: a manifest holding a file entry with
nonzero size 5 and mod-time 200; resolving reuses slug `"abcd"` and leaves
the manifest (hence that size and mod-time) unchanged. -/
theorem c9_resolve_for_create_reuses_slug_witness :
    (findEntry ⟨1, [⟨"b.txt", "abcd", "file", 5, 100, 200⟩]⟩ "b.txt" "file"
      = some ⟨"b.txt", "abcd", "file", 5, 100, 200⟩)
    ∧ ((ResolveForCreate "p" "b.txt" ⟨1, [⟨"b.txt", "abcd", "file", 5, 100, 200⟩]⟩
          "ffff" 999).1
        = "p" ++ "/" ++ "abcd" ++ ".bin"
      ∧ (ResolveForCreate "p" "b.txt" ⟨1, [⟨"b.txt", "abcd", "file", 5, 100, 200⟩]⟩
          "ffff" 999).2
        = ⟨1, [⟨"b.txt", "abcd", "file", 5, 100, 200⟩]⟩) := by
  have hfind : findEntry ⟨1, [⟨"b.txt", "abcd", "file", 5, 100, 200⟩]⟩ "b.txt" "file"
      = some ⟨"b.txt", "abcd", "file", 5, 100, 200⟩ := by decide
  exact ⟨hfind, c9_resolve_for_create_reuses_slug hfind "p" "ffff" 999⟩

/-- Claim C10: the deterministic salt and nonce prefix depend only on the
master key and file id, never on the chunk size, so two ingest calls that
differ only in chunk size derive the same AES-GCM file key and, at the same
record index, the same 12-byte nonce. -/
theorem c10_chunk_size_independent (masterKey : Bytes) (fileID : String)
    (cs1 cs2 : Int) (index : Nat) :
    (deriveHeaderFor masterKey fileID cs1).salt
      = (deriveHeaderFor masterKey fileID cs2).salt ∧
    (deriveHeaderFor masterKey fileID cs1).noncePre
      = (deriveHeaderFor masterKey fileID cs2).noncePre ∧
    recordKey masterKey (deriveHeaderFor masterKey fileID cs1)
      = recordKey masterKey (deriveHeaderFor masterKey fileID cs2) ∧
    recordNonce (deriveHeaderFor masterKey fileID cs1) index
      = recordNonce (deriveHeaderFor masterKey fileID cs2) index :=
  ⟨rfl, rfl, rfl, rfl⟩
